import Mathlib

set_option maxHeartbeats 4000000
set_option maxRecDepth 100000

/-
Verification development for the weighted state-graph shortest-path engine
of the adventofcode2024 repository.

The embedded code comes from:
  * src/bin/day16.rs : maze parsing, graph construction (Graph::from_maze),
    Dijkstra with all-predecessor sets (dijkstra), part1 and part2
    (backward reconstruction of the cells on optimal paths);
  * src/bin/day18.rs : the Map structure with its corrupt/best_path caching.

Modelling conventions:
  * Rust usize arithmetic is modelled by Nat; the sentinel usize::MAX is the
    literal 2^64 - 1.  The repository's weights (1 and 1000) never make the
    code overflow on inputs whose shortest distances stay below the sentinel,
    which the correctness theorems assume explicitly.
  * HashMap<Node, V> is modelled as a finite map in a concrete first-order
    representation: a three-level association structure keyed by the node's
    x coordinate, then y, then the rank of its direction (NodeMap below).
    All map operations go through mget/mset/mmod, whose laws are exactly the
    get/set laws of a finite map, so the embedded code is the source code
    with HashMap reads/writes replaced by the corresponding map operations.
    HashSet<Node> (tiny predecessor sets) is a duplicate-free list in
    insertion order.
  * BinaryHeap<HeapElem> is modelled as a list kept sorted so that the head
    is the maximum element for the derived HeapElem ordering (pop = head,
    push = ordered insert), which is the observable behaviour of a binary
    heap over a total element order.
  * A Rust panic (unwrap of None / indexing a missing key) is modelled by
    propagating none through an Option-valued result.
  * The source's unbounded while-let loops are driven by an explicit fuel;
    each such function is paired with a theorem showing the chosen fuel can
    never run out (the loop measure strictly decreases).
-/

/-- Rust usize::MAX on the 64-bit target, the infinity sentinel of day16. -/
def usizeMAX : Nat := 2 ^ 64 - 1

/-- CellType from day16.rs. -/
inductive CellType where
  | Start
  | End
  | Empty
  | Wall
deriving DecidableEq

/-- Direction from day16.rs; declaration order fixes the derived Ord. -/
inductive Direction where
  | Up
  | Down
  | Left
  | Right
deriving DecidableEq

/-- Numeric rank of a Direction, realising the derived Ord of day16.rs. -/
def Direction.idx : Direction → Nat
  | .Up => 0
  | .Down => 1
  | .Left => 2
  | .Right => 3

theorem Direction.idx_inj : ∀ {a b : Direction}, a.idx = b.idx → a = b := by
  intro a b
  cases a <;> cases b <;> simp [Direction.idx]

/-- Node from day16.rs: a grid position together with a facing. -/
structure Node where
  x : Nat
  y : Nat
  direction : Direction
deriving DecidableEq

/-- Strict order on Node realising the derived lexicographic Ord (x, y, direction). -/
def nodeLtB (a b : Node) : Bool :=
  Nat.blt a.x b.x ||
    (a.x == b.x && (Nat.blt a.y b.y ||
      (a.y == b.y && Nat.blt a.direction.idx b.direction.idx)))

/-! ### A concrete finite-map representation for HashMap<Node, V>

One level of Nat-keyed association list, composed three deep (x, y,
direction rank).  Nat key comparisons are cheap for the kernel, which keeps
the embedded algorithms executable by rfl/decide on the worked examples. -/

/-- One Nat-keyed level. -/
abbrev NatMap (β : Type) := List (Nat × β)

/-- Lookup (first matching key). -/
def nget {β : Type} : NatMap β → Nat → Option β
  | [], _ => none
  | (k, v) :: rest, a => if k = a then some v else nget rest a

/-- Insert or replace. -/
def nset {β : Type} (a : Nat) (v : β) : NatMap β → NatMap β
  | [] => [(a, v)]
  | (k, w) :: rest => if k = a then (a, v) :: rest else (k, w) :: nset a v rest

/-- Modify in place when the key is present; identity otherwise. -/
def nmod {β : Type} (f : β → β) (a : Nat) : NatMap β → NatMap β
  | [] => []
  | (k, w) :: rest => if k = a then (k, f w) :: rest else (k, w) :: nmod f a rest

theorem nget_nset_self {β : Type} (a : Nat) (v : β) (m : NatMap β) :
    nget (nset a v m) a = some v := by
  induction m with
  | nil => simp [nset, nget]
  | cons e rest ih =>
    obtain ⟨k, w⟩ := e
    by_cases h : k = a
    · simp [nset, nget, h]
    · simp [nset, nget, h, ih]

theorem nget_nset_other {β : Type} (a b : Nat) (v : β) (m : NatMap β) (h : a ≠ b) :
    nget (nset a v m) b = nget m b := by
  induction m with
  | nil => simp [nset, nget, h]
  | cons e rest ih =>
    obtain ⟨k, w⟩ := e
    by_cases hk : k = a
    · subst hk
      simp [nset, nget, h]
    · simp [nset, nget, hk, ih]

theorem nget_nmod_self {β : Type} (f : β → β) (a : Nat) (m : NatMap β) :
    nget (nmod f a m) a = (nget m a).map f := by
  induction m with
  | nil => simp [nmod, nget]
  | cons e rest ih =>
    obtain ⟨k, w⟩ := e
    by_cases h : k = a
    · simp [nmod, nget, h]
    · simp [nmod, nget, h, ih]

theorem nget_nmod_other {β : Type} (f : β → β) (a b : Nat) (m : NatMap β) (h : a ≠ b) :
    nget (nmod f a m) b = nget m b := by
  induction m with
  | nil => simp [nmod, nget]
  | cons e rest ih =>
    obtain ⟨k, w⟩ := e
    by_cases hk : k = a
    · subst hk
      simp [nmod, nget, h]
    · simp [nmod, nget, hk, ih]

/-- The HashMap<Node, V> model: x-level, then y-level, then direction rank. -/
abbrev NodeMap (β : Type) := NatMap (NatMap (NatMap β))

/-- HashMap lookup map.get(&node). -/
def mget {β : Type} (m : NodeMap β) (n : Node) : Option β :=
  (nget m n.x).bind fun row => (nget row n.y).bind fun cell => nget cell n.direction.idx

/-- HashMap insert map.insert(node, v). -/
def mset {β : Type} (n : Node) (v : β) (m : NodeMap β) : NodeMap β :=
  let row := (nget m n.x).getD []
  let cell := (nget row n.y).getD []
  nset n.x (nset n.y (nset n.direction.idx v cell) row) m

/-- In-place modification of an existing entry (get_mut semantics). -/
def mmod {β : Type} (f : β → β) (n : Node) (m : NodeMap β) : NodeMap β :=
  nmod (fun row => nmod (fun cell => nmod f n.direction.idx cell) n.y row) n.x m

/-- Map every stored value, keeping the key set (the keys().map(...).collect()
initialisation pattern). -/
def mmap {β γ : Type} (f : β → γ) (m : NodeMap β) : NodeMap γ :=
  m.map fun r => (r.1, r.2.map fun c => (c.1, c.2.map fun e => (e.1, f e.2)))

theorem mget_mset_self {β : Type} (n : Node) (v : β) (m : NodeMap β) :
    mget (mset n v m) n = some v := by
  unfold mget mset
  simp only [nget_nset_self, Option.some_bind]

theorem mget_mset_other {β : Type} (n n' : Node) (v : β) (m : NodeMap β)
    (h : n ≠ n') : mget (mset n v m) n' = mget m n' := by
  unfold mget mset
  by_cases hx : n.x = n'.x
  · rw [hx, nget_nset_self]
    simp only [Option.some_bind]
    by_cases hy : n.y = n'.y
    · have hd : n.direction ≠ n'.direction := by
        intro hdir
        apply h
        cases n; cases n'
        simp_all
      rw [hy, nget_nset_self]
      simp only [Option.some_bind]
      rw [nget_nset_other _ _ _ _ (fun hh => hd (Direction.idx_inj hh))]
      rw [← hx, ← hy]
      cases hrow : nget m n.x with
      | none => simp [nget]
      | some row =>
        simp only [Option.getD_some, Option.some_bind]
        cases hcell : nget row n.y with
        | none => simp [nget]
        | some cell => simp
    · rw [nget_nset_other _ _ _ _ hy, ← hx]
      cases hrow : nget m n.x with
      | none => simp [nget]
      | some row => simp
  · rw [nget_nset_other _ _ _ _ hx]

theorem mget_mmod_self {β : Type} (f : β → β) (n : Node) (m : NodeMap β) :
    mget (mmod f n m) n = (mget m n).map f := by
  unfold mget mmod
  rw [nget_nmod_self]
  cases nget m n.x with
  | none => rfl
  | some row =>
    simp only [Option.map_some', Option.some_bind]
    rw [nget_nmod_self]
    cases nget row n.y with
    | none => rfl
    | some cell =>
      simp only [Option.map_some', Option.some_bind]
      rw [nget_nmod_self]

theorem mget_mmod_other {β : Type} (f : β → β) (n n' : Node) (m : NodeMap β)
    (h : n ≠ n') : mget (mmod f n m) n' = mget m n' := by
  unfold mget mmod
  by_cases hx : n.x = n'.x
  · rw [hx, nget_nmod_self]
    cases hrow : nget m n'.x with
    | none => rfl
    | some row =>
      simp only [Option.map_some', Option.some_bind]
      by_cases hy : n.y = n'.y
      · rw [hy, nget_nmod_self]
        cases hcell : nget row n'.y with
        | none => rfl
        | some cell =>
          have hd : n.direction ≠ n'.direction := by
            intro hdir
            apply h
            cases n; cases n'
            simp_all
          simp only [Option.map_some', Option.some_bind]
          rw [nget_nmod_other _ _ _ _ (fun hh => hd (Direction.idx_inj hh))]
      · rw [nget_nmod_other _ _ _ _ hy]
  · rw [nget_nmod_other _ _ _ _ hx]

theorem nget_map_pair {β γ : Type} (f : β → γ) (l : NatMap β) (a : Nat) :
    nget (l.map fun e => (e.1, f e.2)) a = (nget l a).map f := by
  induction l with
  | nil => rfl
  | cons e rest ih =>
    by_cases h : e.1 = a <;> simp [nget, h, ih]

theorem mget_mmap {β γ : Type} (f : β → γ) (m : NodeMap β) (n : Node) :
    mget (mmap f m) n = (mget m n).map f := by
  unfold mget mmap
  rw [nget_map_pair]
  cases nget m n.x with
  | none => rfl
  | some row =>
    simp only [Option.map_some', Option.some_bind]
    rw [nget_map_pair]
    cases nget row n.y with
    | none => rfl
    | some cell =>
      simp only [Option.map_some', Option.some_bind]
      rw [nget_map_pair]

/-! ### Maze and graph construction (day16.rs) -/

/-- Maze from day16.rs.  The start and end fields are called startPos/endPos
because start and end are Lean keywords. -/
structure Maze where
  cells : List (List CellType)
  rows : Nat
  cols : Nat
  startPos : Nat × Nat
  endPos : Nat × Nat

/-- Cell access cells[i][j]; out-of-range access yields Wall.  The source only
indexes in bounds (guaranteed by Maze.WF below), where both agree. -/
def Maze.cellAt (maze : Maze) (i j : Nat) : CellType :=
  ((maze.cells.getD i []).getD j CellType.Wall)

/-- Row-major cartesian product list (0..a) x (0..b), as produced by
itertools' cartesian_product over two ranges. -/
def prodList (a b : Nat) : List (Nat × Nat) :=
  (List.range a).flatMap fun i => (List.range b).map fun j => (i, j)

/-- Cell lookup used by the start/end searches of Maze::from_cells. -/
def cellsAt (cells : List (List CellType)) (p : Nat × Nat) : CellType :=
  (cells.getD p.1 []).getD p.2 CellType.Wall

/-- Maze::from_cells.  The unwraps of the start/end searches and the cells[0]
access on an empty list are modelled by none.  Note the source iterates
(0..rows) x (0..cols) for the start but (0..cols) x (0..rows) for the end. -/
def Maze.from_cells (cells : List (List CellType)) : Option Maze :=
  match cells with
  | [] => none
  | c0 :: _ =>
    let rows := cells.length
    let cols := c0.length
    match (prodList rows cols).find? (fun p => cellsAt cells p = CellType.Start),
          (prodList cols rows).find? (fun p => cellsAt cells p = CellType.End) with
    | some s, some e => some ⟨cells, rows, cols, s, e⟩
    | _, _ => none

/-- Maze::next_pos from day16.rs. -/
def Maze.next_pos (maze : Maze) (pos : Nat × Nat) (direction : Direction) :
    Option (Nat × Nat) :=
  match direction, pos with
  | .Up, (i, j) => if i = 0 then none else some (i - 1, j)
  | .Down, (i, j) => if i = maze.rows - 1 then none else some (i + 1, j)
  | .Left, (i, j) => if j = 0 then none else some (i, j - 1)
  | .Right, (i, j) => if j = maze.cols - 1 then none else some (i, j + 1)

/-- Character classification of the nom cell parser in parse_input. -/
def parseCell (c : Char) : Option CellType :=
  if c = 'S' then some CellType.Start
  else if c = 'E' then some CellType.End
  else if c = '.' then some CellType.Empty
  else if c = '#' then some CellType.Wall
  else none

/-- One maze row: many1 of cells (fails on an empty or invalid row). -/
def parseRow (s : List Char) : Option (List CellType) :=
  match s with
  | [] => none
  | _ => s.mapM parseCell

/-- Split a character list at every newline (the separated_list1 structure). -/
def splitLinesAux : List Char → List Char → List (List Char)
  | [], acc => [acc.reverse]
  | c :: rest, acc =>
    if c = '\n' then acc.reverse :: splitLinesAux rest []
    else splitLinesAux rest (c :: acc)

/-- Lines of the input string. -/
def splitLines (s : List Char) : List (List Char) :=
  splitLinesAux s []

/-- parse_input from day16.rs: newline-separated rows of cells, then
Maze::from_cells. -/
def parseInput (input : String) : Option Maze :=
  match (splitLines input.toList).mapM parseRow with
  | some cells => Maze.from_cells cells
  | none => none

/-- Graph from day16.rs; the HashMap adjacency in the NodeMap representation. -/
structure Graph where
  adj_list : NodeMap (List (Node × Nat))

/-- The two turn targets of a facing, as listed in Graph::from_maze. -/
def turnsOf : Direction → List Direction
  | .Up => [.Left, .Right]
  | .Down => [.Left, .Right]
  | .Right => [.Up, .Down]
  | .Left => [.Up, .Down]

/-- Outgoing edges of one state in Graph::from_maze: the optional forward move
(weight 1, only into an in-bounds non-wall cell) followed by the two
unconditional turns (weight 1000). -/
def cellEdges (maze : Maze) (x y : Nat) (direction : Direction) : List (Node × Nat) :=
  (match maze.next_pos (x, y) direction with
   | some (i, j) =>
     if maze.cellAt i j ≠ CellType.Wall then [(⟨i, j, direction⟩, 1)] else []
   | none => []) ++
  (turnsOf direction).map fun nd => (⟨x, y, nd⟩, 1000)

/-- The (key, value) insertions performed by the loop of Graph::from_maze, in
iteration order (cells row-major, directions in the listed order); every key
occurs exactly once, so entry().or_insert followed by pushes amounts to one
insertion of the whole edge list. -/
def mazeEntries (maze : Maze) : List (Node × List (Node × Nat)) :=
  (prodList maze.rows maze.cols).flatMap fun p =>
    if maze.cellAt p.1 p.2 = CellType.Wall then []
    else [Direction.Up, Direction.Down, Direction.Left, Direction.Right].map
      fun d => (⟨p.1, p.2, d⟩, cellEdges maze p.1 p.2 d)

/-- Graph::from_maze: perform the insertions. -/
def Graph.from_maze (maze : Maze) : Graph :=
  ⟨(mazeEntries maze).foldl (fun m e => mset e.1 e.2 m) []⟩

/-! ### dijkstra (day16.rs) -/

/-- Distance/predecessor table of dijkstra: HashMap<Node, (usize, HashSet<Node>)>. -/
abbrev DistTable := NodeMap (Nat × List Node)

/-- Heap contents: the (node, cost) pairs of the pending HeapElem values. -/
abbrev Frontier := List (Node × Nat)

/-- Strict order on heap elements: a is less than b exactly when HeapElem's
derived cmp (reversed cost, then node) orders a below b, so the maximum is the
entry of minimum cost, ties broken by the larger node. -/
def heLtB (a b : Node × Nat) : Bool :=
  Nat.blt b.2 a.2 || (b.2 == a.2 && nodeLtB a.1 b.1)

/-- BinaryHeap::push: insert keeping the list sorted with the maximum first. -/
def heapPush (e : Node × Nat) : Frontier → Frontier
  | [] => [e]
  | x :: xs => if heLtB x e then e :: x :: xs else x :: heapPush e xs

/-- HashSet::insert on the predecessor set. -/
def predsInsert (n : Node) (l : List Node) : List Node :=
  if n ∈ l then l else n :: l

/-- Body of the neighbor loop of dijkstra for a single edge: the tie branch
extends the predecessor set; the strict-improvement branch resets it, lowers
the distance and pushes the neighbor. -/
def relaxOne (node : Node) (cost : Nat) (st : DistTable × Frontier)
    (edge : Node × Nat) : DistTable × Frontier :=
  match mget st.1 edge.1 with
  | none => st
  | some (curDist, _) =>
    if curDist = cost + edge.2 then
      (mmod (fun p => (p.1, predsInsert node p.2)) edge.1 st.1, st.2)
    else if curDist > cost + edge.2 then
      (mmod (fun _ => (cost + edge.2, [node])) edge.1 st.1,
       heapPush (edge.1, cost + edge.2) st.2)
    else st

/-- Observational record of one heap pop: which node was popped at which cost,
the distance committed for it in the table at that moment, and whether the
stale-entry guard result[&node].0 > cost discarded the entry. -/
structure PopEvent where
  node : Node
  cost : Nat
  committed : Nat
  skipped : Bool
deriving DecidableEq

/-- Total distance over one direction level. -/
def cellSum (cell : NatMap (Nat × List Node)) : Nat :=
  (cell.map fun e => e.2.1).sum

/-- Total distance over one row level. -/
def rowSum (row : NatMap (NatMap (Nat × List Node))) : Nat :=
  (row.map fun c => cellSum c.2).sum

/-- Total recorded distance of a table, the termination measure component. -/
def sumDist (tbl : DistTable) : Nat :=
  (tbl.map fun r => rowSum r.2).sum

theorem cellSum_nmod (f : Nat × List Node → Nat × List Node)
    (a : Nat) (cell : NatMap (Nat × List Node)) (v : Nat × List Node)
    (h : nget cell a = some v) :
    cellSum (nmod f a cell) + v.1 = cellSum cell + (f v).1 := by
  induction cell with
  | nil => simp [nget] at h
  | cons e rest ih =>
    obtain ⟨k, w⟩ := e
    by_cases hk : k = a
    · subst hk
      rw [nget, if_pos rfl, Option.some_inj] at h
      subst h
      rw [nmod, if_pos rfl]
      simp only [cellSum, List.map_cons, List.sum_cons]
      omega
    · rw [nget, if_neg hk] at h
      rw [nmod, if_neg hk]
      have := ih h
      simp only [cellSum, List.map_cons, List.sum_cons] at this ⊢
      omega

theorem rowSum_nmod (f : NatMap (Nat × List Node) → NatMap (Nat × List Node))
    (a : Nat) (row : NatMap (NatMap (Nat × List Node))) (v : NatMap (Nat × List Node))
    (h : nget row a = some v) :
    rowSum (nmod f a row) + cellSum v = rowSum row + cellSum (f v) := by
  induction row with
  | nil => simp [nget] at h
  | cons e rest ih =>
    obtain ⟨k, w⟩ := e
    by_cases hk : k = a
    · subst hk
      rw [nget, if_pos rfl, Option.some_inj] at h
      subst h
      rw [nmod, if_pos rfl]
      simp only [rowSum, List.map_cons, List.sum_cons]
      omega
    · rw [nget, if_neg hk] at h
      rw [nmod, if_neg hk]
      have := ih h
      simp only [rowSum, List.map_cons, List.sum_cons] at this ⊢
      omega

theorem sumDist_nmod (f : NatMap (NatMap (Nat × List Node)) → NatMap (NatMap (Nat × List Node)))
    (a : Nat) (tbl : DistTable) (v : NatMap (NatMap (Nat × List Node)))
    (h : nget tbl a = some v) :
    sumDist (nmod f a tbl) + rowSum v = sumDist tbl + rowSum (f v) := by
  induction tbl with
  | nil => simp [nget] at h
  | cons e rest ih =>
    obtain ⟨k, w⟩ := e
    by_cases hk : k = a
    · subst hk
      rw [nget, if_pos rfl, Option.some_inj] at h
      subst h
      rw [nmod, if_pos rfl]
      simp only [sumDist, List.map_cons, List.sum_cons]
      omega
    · rw [nget, if_neg hk] at h
      rw [nmod, if_neg hk]
      have := ih h
      simp only [sumDist, List.map_cons, List.sum_cons] at this ⊢
      omega

/-- Effect of mmod on the total distance: replacing the entry at n changes the
sum by exactly the distance difference. -/
theorem sumDist_mmod (f : Nat × List Node → Nat × List Node) (n : Node)
    (tbl : DistTable) (v : Nat × List Node) (h : mget tbl n = some v) :
    sumDist (mmod f n tbl) + v.1 = sumDist tbl + (f v).1 := by
  unfold mget at h
  unfold mmod
  cases hrow : nget tbl n.x with
  | none => rw [hrow] at h; exact absurd h (by simp)
  | some row =>
    rw [hrow] at h
    simp only [Option.some_bind] at h
    cases hcell : nget row n.y with
    | none => rw [hcell] at h; exact absurd h (by simp)
    | some cell =>
      rw [hcell] at h
      simp only [Option.some_bind] at h
      have h3 := cellSum_nmod f n.direction.idx cell v h
      have h2 := rowSum_nmod (fun c => nmod f n.direction.idx c) n.y row cell hcell
      have h1 := sumDist_nmod
        (fun r => nmod (fun c => nmod f n.direction.idx c) n.y r) n.x tbl row hrow
      dsimp only at h1 h2 h3
      omega

theorem heapPush_length (e : Node × Nat) (h : Frontier) :
    (heapPush e h).length = h.length + 1 := by
  induction h with
  | nil => rfl
  | cons x xs ih =>
    simp only [heapPush]
    split
    · simp
    · simp [ih]

theorem relaxOne_measure (node : Node) (cost : Nat) (st : DistTable × Frontier)
    (e : Node × Nat) :
    sumDist (relaxOne node cost st e).1 + (relaxOne node cost st e).2.length ≤
      sumDist st.1 + st.2.length := by
  unfold relaxOne
  cases hl : mget st.1 e.1 with
  | none => simp
  | some v =>
    obtain ⟨d, ps⟩ := v
    simp only
    split_ifs with h1 h2
    · have := sumDist_mmod (fun p => (p.1, predsInsert node p.2)) e.1 st.1 _ hl
      simp only at this ⊢
      omega
    · have := sumDist_mmod (fun _ => (cost + e.2, [node])) e.1 st.1 _ hl
      simp only [heapPush_length] at this ⊢
      omega
    · exact le_refl _

theorem foldl_relax_measure (node : Node) (cost : Nat) (nbrs : List (Node × Nat))
    (st : DistTable × Frontier) :
    sumDist (nbrs.foldl (relaxOne node cost) st).1 +
      (nbrs.foldl (relaxOne node cost) st).2.length ≤ sumDist st.1 + st.2.length := by
  induction nbrs generalizing st with
  | nil => simp
  | cons e rest ih =>
    simp only [List.foldl_cons]
    exact le_trans (ih (relaxOne node cost st e)) (relaxOne_measure node cost st e)

/-- Main loop of dijkstra from day16.rs.  Indexing a node missing from the
tables (a panic in Rust) yields none.  Alongside the final table the loop
returns the list of pop events, a purely observational trace.  The source
loop is unbounded; here it is driven by fuel, and since the measure
sumDist rec + heap.length strictly decreases at every iteration, any fuel
above the initial measure is provably enough (dijkstra below uses one). -/
def dijkstraLoop (g : Graph) : Nat → DistTable → Frontier →
    Option (DistTable × List PopEvent)
  | _, tbl, [] => some (tbl, [])
  | 0, _, _ :: _ => none
  | fuel + 1, tbl, (node, cost) :: rest =>
    match mget tbl node with
    | none => none
    | some (d, _) =>
      if d > cost then
        (dijkstraLoop g fuel tbl rest).map fun r =>
          (r.1, ⟨node, cost, d, true⟩ :: r.2)
      else
        match mget g.adj_list node with
        | none => none
        | some nbrs =>
          let st := nbrs.foldl (relaxOne node cost) (tbl, rest)
          (dijkstraLoop g fuel st.1 st.2).map fun r =>
            (r.1, ⟨node, cost, d, false⟩ :: r.2)

/-- dijkstra from day16.rs, with its observational pop trace.  The initial
table maps every graph key to (usize::MAX, {}), then the source entry is set
to distance 0 (none models the panic when the source is not a key).  The
fuel passed to the loop exceeds the initial termination measure, so it never
runs out (the loop specification below proves this). -/
def dijkstraFull (g : Graph) (source : Node) : Option (DistTable × List PopEvent) :=
  let rec0 : DistTable := mmap (fun _ => (usizeMAX, ([] : List Node))) g.adj_list
  match mget rec0 source with
  | none => none
  | some _ =>
    let rec1 := mmod (fun p => (0, p.2)) source rec0
    dijkstraLoop g (sumDist rec1 + 2) rec1 [(source, 0)]

/-- dijkstra from day16.rs: just the resulting table. -/
def dijkstra (g : Graph) (source : Node) : Option DistTable :=
  (dijkstraFull g source).map fun r => r.1

/-! ### part1 and part2 (day16.rs) -/

/-- Iterator::min on a list of usize values (none exactly when empty). -/
def listMin : List Nat → Option Nat
  | [] => none
  | x :: xs => some (xs.foldl Nat.min x)

/-- Iterator::min_by_key: the first element whose key is minimal. -/
def minByKeyFirst {α : Type} (f : α → Nat) : List α → Option α
  | [] => none
  | x :: xs => some (xs.foldl (fun best y => if f y < f best then y else best) x)

/-- The four candidate end states of part1/part2, in the order [Up, Down, Left, Right]. -/
def endCandidates (maze : Maze) : List Node :=
  [Direction.Up, Direction.Down, Direction.Left, Direction.Right].map
    fun d => ⟨maze.endPos.1, maze.endPos.2, d⟩

/-- part1 from day16.rs: minimum recorded distance over the four orientations
at the end cell (none models any of the source's unwraps/index panics). -/
def part1 (input : String) : Option Nat := do
  let maze ← parseInput input
  let g := Graph.from_maze maze
  let startNode : Node := ⟨maze.startPos.1, maze.startPos.2, Direction.Right⟩
  let tbl ← dijkstra g startNode
  let ds ← (endCandidates maze).mapM fun n => (mget tbl n).map fun p => p.1
  listMin ds

/-- HashSet::insert on the seen set of cells of part2. -/
def posInsert (p : Nat × Nat) (l : List (Nat × Nat)) : List (Nat × Nat) :=
  if p ∈ l then l else p :: l

/-- Backward walk of part2: pop a node from the front of the queue, record its
cell, enqueue all its predecessors (no visited check, exactly as the source).
The loop is unbounded in the source; here it carries fuel, and the termination
theorem shows some fuel always suffices on tables produced by dijkstra. -/
def part2Walk (tbl : DistTable) :
    Nat → List (Nat × Nat) → List Node → Option (List (Nat × Nat))
  | _, seen, [] => some seen
  | 0, _, _ :: _ => none
  | fuel + 1, seen, node :: queue =>
    match mget tbl node with
    | none => none
    | some (_, preds) =>
      part2Walk tbl fuel (posInsert (node.x, node.y) seen) (queue ++ preds)

/-- part2 from day16.rs: pick the first end orientation of minimal recorded
distance, walk the predecessor sets backward and count the distinct cells. -/
def part2 (fuel : Nat) (input : String) : Option Nat := do
  let maze ← parseInput input
  let g := Graph.from_maze maze
  let startNode : Node := ⟨maze.startPos.1, maze.startPos.2, Direction.Right⟩
  let tbl ← dijkstra g startNode
  let cands ← (endCandidates maze).mapM fun n => (mget tbl n).map fun p => (n, p.1)
  let endNode ← minByKeyFirst (fun p => p.2) cands
  let seen ← part2Walk tbl fuel [] [endNode.1]
  pure seen.length

/-! ### Edges, walks and reachability: the specification vocabulary -/

/-- Outgoing adjacency of a node (empty when the node is not a key). -/
def adjOf (g : Graph) (u : Node) : List (Node × Nat) :=
  (mget g.adj_list u).getD []

/-- There is an edge from u to v of weight w. -/
def EdgeOf (g : Graph) (u v : Node) (w : Nat) : Prop :=
  (v, w) ∈ adjOf g u

instance (g : Graph) (u v : Node) (w : Nat) : Decidable (EdgeOf g u v w) :=
  inferInstanceAs (Decidable ((v, w) ∈ adjOf g u))

/-- Validity of a step list starting at a node: every step follows an edge. -/
def stepsOkB (g : Graph) : Node → List (Node × Nat) → Bool
  | _, [] => true
  | u, (v, w) :: rest => decide (EdgeOf g u v w) && stepsOkB g v rest

/-- Endpoint of a step list started at a node. -/
def walkEnd : Node → List (Node × Nat) → Node
  | u, [] => u
  | _, (v, _) :: rest => walkEnd v rest

/-- Total weight of a step list. -/
def walkWeight (steps : List (Node × Nat)) : Nat :=
  (steps.map Prod.snd).sum

/-- The nodes visited by a walk (starting node included). -/
def walkNodes (u : Node) (steps : List (Node × Nat)) : List Node :=
  u :: steps.map Prod.fst

/-- steps is a walk from s to v in g. -/
def IsWalk (g : Graph) (s v : Node) (steps : List (Node × Nat)) : Prop :=
  stepsOkB g s steps = true ∧ walkEnd s steps = v

/-- v is reachable from s in g. -/
def Reaches (g : Graph) (s v : Node) : Prop :=
  ∃ steps, IsWalk g s v steps

/-- Well-formedness facts of the graphs the engine runs on: every edge target
is again a key of the adjacency map, and all weights are positive (the maze
graphs use weights 1 and 1000 only). -/
structure GraphWF (g : Graph) : Prop where
  closed : ∀ u v w, EdgeOf g u v w → mget g.adj_list v ≠ none
  posw : ∀ u v w, EdgeOf g u v w → 1 ≤ w

theorem stepsOkB_append (g : Graph) (u : Node) (l1 l2 : List (Node × Nat)) :
    stepsOkB g u (l1 ++ l2) = (stepsOkB g u l1 && stepsOkB g (walkEnd u l1) l2) := by
  induction l1 generalizing u with
  | nil => simp [stepsOkB, walkEnd]
  | cons e rest ih =>
    obtain ⟨v, w⟩ := e
    simp [stepsOkB, walkEnd, ih, Bool.and_assoc]

theorem walkEnd_append (u : Node) (l1 l2 : List (Node × Nat)) :
    walkEnd u (l1 ++ l2) = walkEnd (walkEnd u l1) l2 := by
  induction l1 generalizing u with
  | nil => simp [walkEnd]
  | cons e rest ih =>
    obtain ⟨v, w⟩ := e
    simp [walkEnd, ih]

theorem walkWeight_append (l1 l2 : List (Node × Nat)) :
    walkWeight (l1 ++ l2) = walkWeight l1 + walkWeight l2 := by
  simp [walkWeight]

/-- Extend a walk by one edge at its end. -/
theorem IsWalk.snoc {g : Graph} {s u v : Node} {w : Nat} {steps : List (Node × Nat)}
    (hw : IsWalk g s u steps) (he : EdgeOf g u v w) :
    IsWalk g s v (steps ++ [(v, w)]) := by
  obtain ⟨hok, hend⟩ := hw
  constructor
  · rw [stepsOkB_append, hok, hend]
    simp [stepsOkB, he]
  · rw [walkEnd_append, hend]
    rfl

theorem walkWeight_snoc (steps : List (Node × Nat)) (v : Node) (w : Nat) :
    walkWeight (steps ++ [(v, w)]) = walkWeight steps + w := by
  simp [walkWeight]

/-- The empty walk. -/
theorem IsWalk.nil (g : Graph) (s : Node) : IsWalk g s s [] :=
  ⟨rfl, rfl⟩

/-- Decompose a walk whose step list ends with an edge. -/
theorem IsWalk.snoc_elim {g : Graph} {s v : Node} {e : Node × Nat}
    {steps : List (Node × Nat)} (hw : IsWalk g s v (steps ++ [e])) :
    e.1 = v ∧ IsWalk g s (walkEnd s steps) steps ∧ EdgeOf g (walkEnd s steps) e.1 e.2 := by
  obtain ⟨hok, hend⟩ := hw
  rw [stepsOkB_append] at hok
  rw [walkEnd_append] at hend
  obtain ⟨v0, w0⟩ := e
  simp only [stepsOkB, Bool.and_eq_true, decide_eq_true_eq, Bool.and_true] at hok
  simp only [walkEnd] at hend
  exact ⟨hend, ⟨hok.1, rfl⟩, hok.2⟩

/-! ### Characterisation of the maze graph -/

theorem mem_prodList (a b : Nat) (p : Nat × Nat) :
    p ∈ prodList a b ↔ p.1 < a ∧ p.2 < b := by
  obtain ⟨i, j⟩ := p
  simp [prodList, List.mem_flatMap, List.mem_map, List.mem_range]

theorem prodList_nodup (a b : Nat) : (prodList a b).Nodup := by
  unfold prodList
  rw [List.nodup_flatMap]
  constructor
  · intro i _
    exact (List.nodup_range _).map fun _ _ hxy => congrArg Prod.snd hxy
  · refine List.Pairwise.imp ?_ (List.nodup_range a)
    intro i j hij
    intro p hp hq
    simp only [List.mem_map, List.mem_range] at hp hq
    obtain ⟨u, _, rfl⟩ := hp
    obtain ⟨v, _, hv⟩ := hq
    exact hij (congrArg Prod.fst hv).symm

theorem mem_mazeEntries (maze : Maze) (n : Node) (es : List (Node × Nat)) :
    (n, es) ∈ mazeEntries maze ↔
      n.x < maze.rows ∧ n.y < maze.cols ∧ maze.cellAt n.x n.y ≠ CellType.Wall ∧
        es = cellEdges maze n.x n.y n.direction := by
  unfold mazeEntries
  rw [List.mem_flatMap]
  constructor
  · rintro ⟨p, hp, hmem⟩
    rw [mem_prodList] at hp
    by_cases hw : maze.cellAt p.1 p.2 = CellType.Wall
    · simp [hw] at hmem
    · simp only [hw, if_false, List.mem_map] at hmem
      obtain ⟨d, _, hd⟩ := hmem
      obtain ⟨h1, h2⟩ := Prod.ext_iff.mp hd
      cases h1
      exact ⟨hp.1, hp.2, hw, h2.symm⟩
  · rintro ⟨h1, h2, h3, h4⟩
    refine ⟨(n.x, n.y), ?_, ?_⟩
    · rw [mem_prodList]
      exact ⟨h1, h2⟩
    · simp only [h3, if_false, List.mem_map]
      refine ⟨n.direction, ?_, ?_⟩
      · cases n.direction <;> simp
      · rw [h4]

theorem mazeEntries_keys_nodup (maze : Maze) :
    ((mazeEntries maze).map Prod.fst).Nodup := by
  unfold mazeEntries
  rw [List.map_flatMap]
  rw [List.nodup_flatMap]
  constructor
  · intro p _
    by_cases hw : maze.cellAt p.1 p.2 = CellType.Wall
    · simp [hw]
    · simp only [hw, if_false, List.map_map]
      refine List.Nodup.map ?_ (by decide)
      intro d1 d2 h
      simpa using congrArg Node.direction h
  · refine List.Pairwise.imp ?_ (prodList_nodup maze.rows maze.cols)
    intro p q hpq
    intro n hn hq
    by_cases hwp : maze.cellAt p.1 p.2 = CellType.Wall
    · simp [hwp] at hn
    by_cases hwq : maze.cellAt q.1 q.2 = CellType.Wall
    · simp [hwq] at hq
    simp only [hwp, hwq, if_false, List.map_map, List.mem_map, Function.comp] at hn hq
    obtain ⟨d1, _, rfl⟩ := hn
    obtain ⟨d2, _, hd⟩ := hq
    apply hpq
    have hx := congrArg Node.x hd
    have hy := congrArg Node.y hd
    simp only at hx hy
    cases p; cases q
    simp_all

theorem mget_foldl_mset_of_not_mem {β : Type} (l : List (Node × β)) (n : Node) :
    ∀ m0 : NodeMap β, n ∉ l.map Prod.fst →
      mget (l.foldl (fun m e => mset e.1 e.2 m) m0) n = mget m0 n := by
  induction l with
  | nil => intro m0 _; rfl
  | cons e rest ih =>
    intro m0 h
    simp only [List.map_cons, List.mem_cons, not_or] at h
    rw [List.foldl_cons, ih (mset e.1 e.2 m0) h.2]
    exact mget_mset_other e.1 n e.2 m0 (fun hh => h.1 hh.symm)

theorem mget_foldl_mset_of_mem {β : Type} (l : List (Node × β)) (n : Node) (v : β) :
    ∀ m0 : NodeMap β, (n, v) ∈ l → (l.map Prod.fst).Nodup →
      mget (l.foldl (fun m e => mset e.1 e.2 m) m0) n = some v := by
  induction l with
  | nil => intro m0 hmem _; simp at hmem
  | cons e rest ih =>
    obtain ⟨k, kv⟩ := e
    intro m0 hmem hnd
    simp only [List.map_cons, List.nodup_cons] at hnd
    rcases List.mem_cons.mp hmem with heq | hrest
    · cases heq
      rw [List.foldl_cons]
      rw [mget_foldl_mset_of_not_mem rest n (mset n v m0) hnd.1]
      exact mget_mset_self n v m0
    · rw [List.foldl_cons]
      exact ih (mset k kv m0) hrest hnd.2

/-- Adjacency lookup of the maze graph at a valid (in-bounds, non-wall) state. -/
theorem mget_from_maze_valid (maze : Maze) (n : Node)
    (hx : n.x < maze.rows) (hy : n.y < maze.cols)
    (hc : maze.cellAt n.x n.y ≠ CellType.Wall) :
    mget (Graph.from_maze maze).adj_list n =
      some (cellEdges maze n.x n.y n.direction) := by
  unfold Graph.from_maze
  exact mget_foldl_mset_of_mem (mazeEntries maze) n _ []
    ((mem_mazeEntries maze n _).mpr ⟨hx, hy, hc, rfl⟩) (mazeEntries_keys_nodup maze)

/-- Adjacency lookup of the maze graph at an invalid state. -/
theorem mget_from_maze_invalid (maze : Maze) (n : Node)
    (h : ¬(n.x < maze.rows ∧ n.y < maze.cols ∧ maze.cellAt n.x n.y ≠ CellType.Wall)) :
    mget (Graph.from_maze maze).adj_list n = none := by
  unfold Graph.from_maze
  rw [mget_foldl_mset_of_not_mem (mazeEntries maze) n []]
  · rfl
  · intro hmem
    simp only [List.mem_map] at hmem
    obtain ⟨⟨n', es⟩, hmem, rfl⟩ := hmem
    rw [mem_mazeEntries] at hmem
    exact h ⟨hmem.1, hmem.2.1, hmem.2.2.1⟩

/-- next_pos keeps positions inside the grid. -/
theorem next_pos_bounds (maze : Maze) (x y : Nat) (d : Direction) (i j : Nat)
    (h : maze.next_pos (x, y) d = some (i, j))
    (hx : x < maze.rows) (hy : y < maze.cols) :
    i < maze.rows ∧ j < maze.cols := by
  cases d <;> simp only [Maze.next_pos] at h <;> split at h <;>
    simp only [Option.some_inj, reduceCtorEq] at h <;>
    obtain ⟨rfl, rfl⟩ := Prod.ext_iff.mp h <;> omega

/-- Membership in the edge list of a state, exactly as the claim describes:
the forward move is present iff the adjacent cell exists and is not a wall;
the two perpendicular turns are always present. -/
theorem mem_cellEdges (maze : Maze) (x y : Nat) (d : Direction) (v : Node) (w : Nat) :
    (v, w) ∈ cellEdges maze x y d ↔
      (w = 1 ∧ ∃ i j, maze.next_pos (x, y) d = some (i, j) ∧
        maze.cellAt i j ≠ CellType.Wall ∧ v = ⟨i, j, d⟩) ∨
      (w = 1000 ∧ v.x = x ∧ v.y = y ∧ v.direction ∈ turnsOf d) := by
  unfold cellEdges
  rw [List.mem_append]
  constructor
  · rintro (h | h)
    · left
      cases hn : maze.next_pos (x, y) d with
      | none => rw [hn] at h; simp at h
      | some p =>
        obtain ⟨i, j⟩ := p
        rw [hn] at h
        dsimp only at h
        by_cases hc : maze.cellAt i j ≠ CellType.Wall
        · rw [if_pos hc, List.mem_singleton] at h
          obtain ⟨h1, h2⟩ := Prod.ext_iff.mp h
          simp only at h1 h2
          subst h1
          subst h2
          exact ⟨rfl, i, j, rfl, hc, rfl⟩
        · rw [if_neg hc] at h
          simp at h
    · right
      simp only [List.mem_map] at h
      obtain ⟨nd, hnd, hh⟩ := h
      obtain ⟨h1, h2⟩ := Prod.ext_iff.mp hh
      cases h1
      exact ⟨h2.symm, rfl, rfl, hnd⟩
  · rintro (⟨rfl, i, j, hn, hc, rfl⟩ | ⟨rfl, hvx, hvy, hvd⟩)
    · left
      rw [hn]
      simp [hc]
    · right
      simp only [List.mem_map]
      refine ⟨v.direction, hvd, ?_⟩
      cases v
      simp_all

/-- The maze graph is well formed: closed under edges, with positive weights. -/
theorem from_maze_wf (maze : Maze) : GraphWF (Graph.from_maze maze) := by
  constructor
  · intro u v w he
    unfold EdgeOf adjOf at he
    cases hu : mget (Graph.from_maze maze).adj_list u with
    | none => rw [hu] at he; simp at he
    | some es =>
      rw [hu] at he
      simp only [Option.getD_some] at he
      by_cases hvalid : u.x < maze.rows ∧ u.y < maze.cols ∧
          maze.cellAt u.x u.y ≠ CellType.Wall
      · obtain ⟨hx, hy, hc⟩ := hvalid
        rw [mget_from_maze_valid maze u hx hy hc, Option.some_inj] at hu
        subst hu
        rw [mem_cellEdges] at he
        rcases he with ⟨_, i, j, hn, hcv, rfl⟩ | ⟨_, hvx, hvy, _⟩
        · obtain ⟨hi, hj⟩ := next_pos_bounds maze u.x u.y u.direction i j hn hx hy
          rw [mget_from_maze_valid maze _ hi hj hcv]
          simp
        · rw [mget_from_maze_valid maze v (hvx ▸ hx) (hvy ▸ hy)
            (by rw [hvx, hvy]; exact hc)]
          simp
      · rw [mget_from_maze_invalid maze u hvalid] at hu
        simp at hu
  · intro u v w he
    unfold EdgeOf adjOf at he
    cases hu : mget (Graph.from_maze maze).adj_list u with
    | none => rw [hu] at he; simp at he
    | some es =>
      rw [hu] at he
      simp only [Option.getD_some] at he
      by_cases hvalid : u.x < maze.rows ∧ u.y < maze.cols ∧
          maze.cellAt u.x u.y ≠ CellType.Wall
      · obtain ⟨hx, hy, hc⟩ := hvalid
        rw [mget_from_maze_valid maze u hx hy hc, Option.some_inj] at hu
        subst hu
        rw [mem_cellEdges] at he
        rcases he with ⟨rfl, _⟩ | ⟨rfl, _⟩ <;> omega
      · rw [mget_from_maze_invalid maze u hvalid] at hu
        simp at hu

/-! ### Heap order and insertion lemmas -/

theorem nodeLtB_iff (a b : Node) :
    nodeLtB a b = true ↔
      a.x < b.x ∨ (a.x = b.x ∧ (a.y < b.y ∨ (a.y = b.y ∧
        a.direction.idx < b.direction.idx))) := by
  unfold nodeLtB
  simp [Nat.blt_eq, beq_iff_eq]

theorem heLtB_iff (a b : Node × Nat) :
    heLtB a b = true ↔ b.2 < a.2 ∨ (b.2 = a.2 ∧ nodeLtB a.1 b.1 = true) := by
  unfold heLtB
  simp [Nat.blt_eq, beq_iff_eq]

theorem heLtB_trans {a b c : Node × Nat} (h1 : heLtB a b = true)
    (h2 : heLtB b c = true) : heLtB a c = true := by
  rw [heLtB_iff] at h1 h2 ⊢
  rw [nodeLtB_iff] at *
  omega

theorem heLtB_asymm {a b : Node × Nat} (h : heLtB a b = true) :
    heLtB b a = false := by
  rw [Bool.eq_false_iff]
  intro hb
  rw [heLtB_iff] at h hb
  rw [nodeLtB_iff] at *
  omega

/-- A heap entry below another has the larger or equal cost. -/
theorem heLtB_false_cost {a b : Node × Nat} (h : heLtB a b = false) :
    a.2 ≤ b.2 := by
  by_contra hc
  rw [Bool.eq_false_iff] at h
  apply h
  rw [heLtB_iff]
  omega

theorem mem_heapPush (x e : Node × Nat) (h : Frontier) :
    x ∈ heapPush e h ↔ x = e ∨ x ∈ h := by
  induction h with
  | nil => simp [heapPush]
  | cons y ys ih =>
    simp only [heapPush]
    split
    · simp only [List.mem_cons]
      try tauto
    · simp only [List.mem_cons, ih]
      try tauto

theorem heapPush_sorted (e : Node × Nat) (h : Frontier)
    (hs : h.Pairwise fun a b => heLtB a b = false) :
    (heapPush e h).Pairwise fun a b => heLtB a b = false := by
  induction h with
  | nil => simp [heapPush]
  | cons x xs ih =>
    rw [List.pairwise_cons] at hs
    simp only [heapPush]
    split
    · rename_i hlt
      rw [List.pairwise_cons]
      constructor
      · intro b hb
        rcases List.mem_cons.mp hb with rfl | hbxs
        · exact heLtB_asymm hlt
        · rw [Bool.eq_false_iff]
          intro heb
          have hxb := heLtB_trans hlt heb
          rw [hs.1 b hbxs] at hxb
          exact Bool.false_ne_true hxb
      · exact List.pairwise_cons.mpr hs
    · rename_i hnlt
      rw [List.pairwise_cons]
      refine ⟨?_, ih hs.2⟩
      intro b hb
      rcases (mem_heapPush b e xs).mp hb with rfl | hbxs
      · exact Bool.not_eq_true _ ▸ hnlt
      · exact hs.1 b hbxs

theorem mem_predsInsert (q n : Node) (l : List Node) :
    q ∈ predsInsert n l ↔ q = n ∨ q ∈ l := by
  unfold predsInsert
  split
  · rename_i hmem
    constructor
    · tauto
    · rintro (rfl | hq) <;> [exact hmem; exact hq]
  · simp [List.mem_cons]

/-- mmod never changes which keys are present. -/
theorem mget_mmod_none {β : Type} (f : β → β) (n n' : Node) (m : NodeMap β) :
    mget (mmod f n m) n' = none ↔ mget m n' = none := by
  by_cases h : n = n'
  · subst h
    rw [mget_mmod_self]
    cases mget m n <;> simp
  · rw [mget_mmod_other _ _ _ _ h]

/-! ### The dijkstra loop invariant -/

/-- Node p is fully relaxed at its current table distance: every edge out of
p respects the triangle inequality, and every tight edge has p recorded as a
predecessor of its target. -/
def Expanded (g : Graph) (tbl : DistTable) (p : Node) : Prop :=
  ∀ dp psp, mget tbl p = some (dp, psp) →
    ∀ v w, EdgeOf g p v w → ∀ dv ps, mget tbl v = some (dv, ps) →
      dv ≤ dp + w ∧ (dv = dp + w → p ∈ ps)

/-- Partial expansion of the node p being processed at cost c: every edge of
p is either still in the remaining work list or already fully relaxed. -/
def PExp (g : Graph) (tbl : DistTable) (p : Node) (c : Nat)
    (rem : List (Node × Nat)) : Prop :=
  ∀ v w, EdgeOf g p v w → (v, w) ∈ rem ∨
    ∀ dv ps, mget tbl v = some (dv, ps) → dv ≤ c + w ∧ (dv = c + w → p ∈ ps)

/-- The invariant of dijkstra's main loop, tying the distance table and the
pending frontier together. -/
structure LoopInv (g : Graph) (s : Node) (tbl : DistTable) (heap : Frontier) : Prop where
  keys : ∀ n, mget tbl n = none ↔ mget g.adj_list n = none
  srcKey : mget tbl s ≠ none
  src0 : ∀ d ps, mget tbl s = some (d, ps) → d = 0
  bound : ∀ v d ps, mget tbl v = some (d, ps) → d ≤ usizeMAX
  ub : ∀ v d ps, mget tbl v = some (d, ps) →
    d = usizeMAX ∨ ∃ steps, IsWalk g s v steps ∧ walkWeight steps = d
  hs : ∀ v c, (v, c) ∈ heap →
    (∃ d ps, mget tbl v = some (d, ps) ∧ d ≤ c) ∧
      ∃ steps, IsWalk g s v steps ∧ walkWeight steps = c
  sorted : heap.Pairwise fun a b => heLtB a b = false
  gact : ∀ v d ps, mget tbl v = some (d, ps) → d < usizeMAX →
    Expanded g tbl v ∨ (v, d) ∈ heap
  psS : ∀ v d ps, mget tbl v = some (d, ps) → ∀ q, q ∈ ps →
    ∃ w dq psq, EdgeOf g q v w ∧ mget tbl q = some (dq, psq) ∧
      (dq + w = d ∨ (dq + w < d ∧ (q, dq) ∈ heap))

/-- What remains of the invariant when the frontier has been exhausted. -/
structure Final (g : Graph) (s : Node) (tbl : DistTable) : Prop where
  keys : ∀ n, mget tbl n = none ↔ mget g.adj_list n = none
  srcKey : mget tbl s ≠ none
  src0 : ∀ d ps, mget tbl s = some (d, ps) → d = 0
  bound : ∀ v d ps, mget tbl v = some (d, ps) → d ≤ usizeMAX
  ub : ∀ v d ps, mget tbl v = some (d, ps) →
    d = usizeMAX ∨ ∃ steps, IsWalk g s v steps ∧ walkWeight steps = d
  expAll : ∀ v d ps, mget tbl v = some (d, ps) → d < usizeMAX → Expanded g tbl v
  psEq : ∀ v d ps, mget tbl v = some (d, ps) → ∀ q, q ∈ ps →
    ∃ w dq psq, EdgeOf g q v w ∧ mget tbl q = some (dq, psq) ∧ dq + w = d

theorem LoopInv.final {g : Graph} {s : Node} {tbl : DistTable}
    (h : LoopInv g s tbl []) : Final g s tbl := by
  refine ⟨h.keys, h.srcKey, h.src0, h.bound, h.ub, ?_, ?_⟩
  · intro v d ps hv hd
    rcases h.gact v d ps hv hd with he | hmem
    · exact he
    · simp at hmem
  · intro v d ps hv q hq
    obtain ⟨w, dq, psq, he, hgq, hcase⟩ := h.psS v d ps hv q hq
    rcases hcase with heq | ⟨_, hmem⟩
    · exact ⟨w, dq, psq, he, hgq, heq⟩
    · simp at hmem

/-- Case analysis of one relaxation, matching the three branches of the
neighbor loop body. -/
theorem relaxOne_cases (node : Node) (cost : Nat) (tbl : DistTable)
    (heap : Frontier) (edge : Node × Nat) :
    (mget tbl edge.1 = none ∧ relaxOne node cost (tbl, heap) edge = (tbl, heap)) ∨
    ∃ d ps, mget tbl edge.1 = some (d, ps) ∧
      ((d = cost + edge.2 ∧ relaxOne node cost (tbl, heap) edge =
          (mmod (fun p => (p.1, predsInsert node p.2)) edge.1 tbl, heap)) ∨
       (d > cost + edge.2 ∧ relaxOne node cost (tbl, heap) edge =
          (mmod (fun _ => (cost + edge.2, [node])) edge.1 tbl,
            heapPush (edge.1, cost + edge.2) heap)) ∨
       (d < cost + edge.2 ∧ relaxOne node cost (tbl, heap) edge = (tbl, heap))) := by
  unfold relaxOne
  cases hl : mget tbl edge.1 with
  | none => exact Or.inl ⟨rfl, rfl⟩
  | some v =>
    obtain ⟨d, ps⟩ := v
    dsimp only
    right
    refine ⟨d, ps, rfl, ?_⟩
    by_cases h1 : d = cost + edge.2
    · left
      exact ⟨h1, by rw [if_pos h1]⟩
    · by_cases h2 : d > cost + edge.2
      · right; left
        refine ⟨h2, ?_⟩
        rw [if_neg h1, if_pos h2]
      · right; right
        refine ⟨by omega, ?_⟩
        rw [if_neg h1, if_neg h2]

/-- When every neighbor's recorded distance is already strictly below the
relaxation value, the whole neighbor loop is a no-op (the situation of a
stale pop). -/
theorem foldl_relax_noop (g : Graph) (p : Node) (c : Nat)
    (tbl : DistTable) (heap : Frontier)
    (hsmall : ∀ v w, EdgeOf g p v w → ∀ dv ps, mget tbl v = some (dv, ps) →
      dv < c + w) :
    ∀ rem : List (Node × Nat), (∀ e ∈ rem, EdgeOf g p e.1 e.2) →
      rem.foldl (relaxOne p c) (tbl, heap) = (tbl, heap) := by
  intro rem
  induction rem with
  | nil => intro _; rfl
  | cons e rest ih =>
    intro hrem
    have hedge := hrem e (List.mem_cons_self e rest)
    rw [List.foldl_cons]
    have hstep : relaxOne p c (tbl, heap) e = (tbl, heap) := by
      rcases relaxOne_cases p c tbl heap e with ⟨_, heq⟩ | ⟨d, ps, hv, hcases⟩
      · exact heq
      · have h2 := hsmall e.1 e.2 hedge d ps hv
        rcases hcases with ⟨h1, _⟩ | ⟨h1, _⟩ | ⟨_, heq⟩
        · omega
        · omega
        · exact heq
    rw [hstep]
    exact ih fun e' he' => hrem e' (List.mem_cons_of_mem e he')

/-- Dropping the popped entry preserves the loop invariant, provided the
entry was not the exact-distance witness of its node. -/
theorem LoopInv.tail {g : Graph} {s : Node} {tbl : DistTable} {p : Node}
    {c : Nat} {rest : Frontier} (h : LoopInv g s tbl ((p, c) :: rest))
    (hne : ∀ dp psp, mget tbl p = some (dp, psp) → dp ≠ c) :
    LoopInv g s tbl rest := by
  refine ⟨h.keys, h.srcKey, h.src0, h.bound, h.ub, ?_,
    (List.pairwise_cons.mp h.sorted).2, ?_, ?_⟩
  · intro v c' hm
    exact h.hs v c' (List.mem_cons_of_mem _ hm)
  · intro v d ps hv hd
    rcases h.gact v d ps hv hd with he | hmem
    · exact Or.inl he
    · rcases List.mem_cons.mp hmem with heq | hmem'
      · obtain ⟨h1, h2⟩ := Prod.ext_iff.mp heq
        simp only at h1 h2
        subst h1
        exact absurd h2 (hne d ps hv)
      · exact Or.inr hmem'
  · intro v d ps hv q hq
    obtain ⟨w, dq, psq, he, hgq, hcase⟩ := h.psS v d ps hv q hq
    refine ⟨w, dq, psq, he, hgq, ?_⟩
    rcases hcase with heq | ⟨hlt, hmem⟩
    · exact Or.inl heq
    · rcases List.mem_cons.mp hmem with heq | hmem'
      · obtain ⟨h1, h2⟩ := Prod.ext_iff.mp heq
        simp only at h1 h2
        subst h1
        exact absurd h2 (hne dq psq hgq)
      · exact Or.inr ⟨hlt, hmem'⟩

/-- The invariant carried through the neighbor fold while node p is being
processed at its committed cost c; rem is the still unprocessed suffix of
p's edge list. -/
structure FoldInv (g : Graph) (s p : Node) (c : Nat) (rem : List (Node × Nat))
    (tbl : DistTable) (heap : Frontier) : Prop where
  keys : ∀ n, mget tbl n = none ↔ mget g.adj_list n = none
  srcKey : mget tbl s ≠ none
  src0 : ∀ d ps, mget tbl s = some (d, ps) → d = 0
  bound : ∀ v d ps, mget tbl v = some (d, ps) → d ≤ usizeMAX
  ub : ∀ v d ps, mget tbl v = some (d, ps) →
    d = usizeMAX ∨ ∃ steps, IsWalk g s v steps ∧ walkWeight steps = d
  pfix : ∃ psp, mget tbl p = some (c, psp)
  hs : ∀ v c', (v, c') ∈ heap →
    (∃ d ps, mget tbl v = some (d, ps) ∧ d ≤ c') ∧
      ∃ steps, IsWalk g s v steps ∧ walkWeight steps = c'
  sorted : heap.Pairwise fun a b => heLtB a b = false
  gact : ∀ v d ps, mget tbl v = some (d, ps) → d < usizeMAX →
    Expanded g tbl v ∨ (v, d) ∈ heap ∨ (v = p ∧ PExp g tbl p c rem)
  psS : ∀ v d ps, mget tbl v = some (d, ps) → ∀ q, q ∈ ps →
    ∃ w dq psq, EdgeOf g q v w ∧ mget tbl q = some (dq, psq) ∧
      (dq + w = d ∨ (dq + w < d ∧ ((q, dq) ∈ heap ∨
        (q = p ∧ ∃ w', EdgeOf g p v w' ∧ (v, w') ∈ rem ∧ c + w' ≤ d))))

theorem mget_mmod_at {β : Type} (f : β → β) (n : Node) (m : NodeMap β) (v : β)
    (h : mget m n = some v) : mget (mmod f n m) n = some (f v) := by
  rw [mget_mmod_self, h]
  rfl

/-- Entries of the table after the tie branch's predecessor insertion. -/
theorem mget_predsIns_eq (p0 v0 : Node) (tbl : DistTable) (n : Node) (d : Nat)
    (ps : List Node) :
    mget (mmod (fun pr => (pr.1, predsInsert p0 pr.2)) v0 tbl) n = some (d, ps) ↔
      ((n = v0 ∧ ∃ ps0, mget tbl n = some (d, ps0) ∧ ps = predsInsert p0 ps0) ∨
       (n ≠ v0 ∧ mget tbl n = some (d, ps))) := by
  by_cases h : n = v0
  · subst h
    rw [mget_mmod_self]
    cases hget : mget tbl n with
    | none => simp
    | some pr =>
      obtain ⟨d0, ps0⟩ := pr
      constructor
      · intro hsome
        rw [Option.map_some', Option.some_inj] at hsome
        obtain ⟨h1, h2⟩ := Prod.ext_iff.mp hsome
        simp only at h1 h2
        exact Or.inl ⟨rfl, ps0, by rw [h1], h2.symm⟩
      · rintro (⟨-, ps1, hps1, rfl⟩ | ⟨hne, -⟩)
        · rw [Option.some_inj] at hps1
          obtain ⟨h1, h2⟩ := Prod.ext_iff.mp hps1
          simp only at h1 h2
          rw [Option.map_some', Option.some_inj, h1, h2]
        · exact absurd rfl hne
  · rw [mget_mmod_other _ _ _ _ fun hh => h hh.symm]
    constructor
    · intro hget
      exact Or.inr ⟨h, hget⟩
    · rintro (⟨rfl, _⟩ | ⟨-, hget⟩)
      · exact absurd rfl h
      · exact hget

/-- Entries of the table after the strict-improvement branch's overwrite. -/
theorem mget_improve_eq (p0 v0 : Node) (nd : Nat) (tbl : DistTable) (n : Node)
    (d : Nat) (ps : List Node) :
    mget (mmod (fun _ => (nd, [p0])) v0 tbl) n = some (d, ps) ↔
      ((n = v0 ∧ d = nd ∧ ps = [p0] ∧ ∃ pr, mget tbl n = some pr) ∨
       (n ≠ v0 ∧ mget tbl n = some (d, ps))) := by
  by_cases h : n = v0
  · subst h
    rw [mget_mmod_self]
    cases hget : mget tbl n with
    | none => simp
    | some pr =>
      constructor
      · intro hsome
        rw [Option.map_some', Option.some_inj] at hsome
        obtain ⟨h1, h2⟩ := Prod.ext_iff.mp hsome
        simp only at h1 h2
        exact Or.inl ⟨rfl, h1.symm, h2.symm, pr, rfl⟩
      · rintro (⟨-, rfl, rfl, -⟩ | ⟨hne, -⟩)
        · rw [Option.map_some']
        · exact absurd rfl hne
  · rw [mget_mmod_other _ _ _ _ fun hh => h hh.symm]
    constructor
    · intro hget
      exact Or.inr ⟨h, hget⟩
    · rintro (⟨rfl, _⟩ | ⟨-, hget⟩)
      · exact absurd rfl h
      · exact hget

/-- Expansion survives growing a predecessor set. -/
theorem Expanded.predsInsert_mmod {g : Graph} {tbl : DistTable} (v0 p0 q : Node)
    (hexp : Expanded g tbl q) :
    Expanded g (mmod (fun pr => (pr.1, predsInsert p0 pr.2)) v0 tbl) q := by
  intro dq psq hq u w he du psu hu
  rw [mget_predsIns_eq] at hq hu
  have hq' : ∃ psq0, mget tbl q = some (dq, psq0) := by
    rcases hq with ⟨-, ps0, hg, -⟩ | ⟨-, hg⟩
    · exact ⟨ps0, hg⟩
    · exact ⟨psq, hg⟩
  obtain ⟨psq0, hq0⟩ := hq'
  rcases hu with ⟨-, ps0, hg, rfl⟩ | ⟨-, hg⟩
  · have hold := hexp dq psq0 hq0 u w he du ps0 hg
    refine ⟨hold.1, fun heq => ?_⟩
    rw [mem_predsInsert]
    exact Or.inr (hold.2 heq)
  · exact hexp dq psq0 hq0 u w he du psu hg

/-- Expansion of another node survives a strict improvement of v0. -/
theorem Expanded.improve_mmod {g : Graph} {tbl : DistTable} (v0 p0 q : Node)
    (nd : Nat) (hq : q ≠ v0)
    (hlt : ∀ d ps, mget tbl v0 = some (d, ps) → nd < d)
    (hexp : Expanded g tbl q) :
    Expanded g (mmod (fun _ => (nd, [p0])) v0 tbl) q := by
  intro dq psq hqget u w he du psu hu
  rw [mget_improve_eq] at hqget hu
  rcases hqget with ⟨heq, -⟩ | ⟨-, hqget⟩
  · exact absurd heq hq
  rcases hu with ⟨rfl, rfl, rfl, ⟨d0, ps0⟩, hg⟩ | ⟨-, hg⟩
  · have hold := hexp dq psq hqget u w he d0 ps0 hg
    have hltd := hlt d0 ps0 hg
    exact ⟨by omega, fun heq => by omega⟩
  · exact hexp dq psq hqget u w he du psu hg

/-- The tie branch keeps every entry's distance, only growing v0's preds. -/
theorem mget_predsIns_entry (p0 v0 n : Node) (tbl : DistTable) (dn : Nat)
    (psn : List Node) (h : mget tbl n = some (dn, psn)) :
    ∃ psn', mget (mmod (fun pr => (pr.1, predsInsert p0 pr.2)) v0 tbl) n =
      some (dn, psn') ∧ ∀ x ∈ psn, x ∈ psn' := by
  by_cases hn : n = v0
  · subst hn
    refine ⟨predsInsert p0 psn, mget_mmod_at _ _ _ _ h, ?_⟩
    intro x hx
    rw [mem_predsInsert]
    exact Or.inr hx
  · exact ⟨psn, by rw [mget_mmod_other _ _ _ _ fun hh => hn hh.symm]; exact h,
      fun x hx => hx⟩

theorem PExp.tie_step {g : Graph} {tbl : DistTable} {p v0 : Node} {c w0 d : Nat}
    {ps : List Node} {rem' : List (Node × Nat)}
    (hv : mget tbl v0 = some (d, ps)) (hd : d = c + w0)
    (hpexp : PExp g tbl p c ((v0, w0) :: rem')) :
    PExp g (mmod (fun pr => (pr.1, predsInsert p pr.2)) v0 tbl) p c rem' := by
  intro u w he
  rcases hpexp u w he with hmem | hdirect
  · rcases List.mem_cons.mp hmem with heq | hmem'
    · obtain ⟨h1, h2⟩ := Prod.ext_iff.mp heq
      simp only at h1 h2
      subst h1
      subst h2
      right
      intro dv ps' hv'
      rw [mget_predsIns_eq] at hv'
      rcases hv' with ⟨-, ps1, hg, rfl⟩ | ⟨hne, -⟩
      · rw [hv, Option.some_inj] at hg
        obtain ⟨hh1, hh2⟩ := Prod.ext_iff.mp hg
        simp only at hh1 hh2
        refine ⟨by omega, fun _ => ?_⟩
        rw [mem_predsInsert]
        exact Or.inl rfl
      · exact absurd rfl hne
    · exact Or.inl hmem'
  · right
    intro dv ps' hv'
    rw [mget_predsIns_eq] at hv'
    rcases hv' with ⟨-, ps1, hg, rfl⟩ | ⟨-, hg⟩
    · have hold := hdirect dv ps1 hg
      refine ⟨hold.1, fun heq => ?_⟩
      rw [mem_predsInsert]
      exact Or.inr (hold.2 heq)
    · exact hdirect dv ps' hg

theorem PExp.improve_step {g : Graph} {tbl : DistTable} {p v0 : Node}
    {c w0 d : Nat} {ps : List Node} {rem' : List (Node × Nat)}
    (hv : mget tbl v0 = some (d, ps)) (hd : d > c + w0)
    (hpexp : PExp g tbl p c ((v0, w0) :: rem')) :
    PExp g (mmod (fun _ => (c + w0, [p])) v0 tbl) p c rem' := by
  intro u w he
  rcases hpexp u w he with hmem | hdirect
  · rcases List.mem_cons.mp hmem with heq | hmem'
    · obtain ⟨h1, h2⟩ := Prod.ext_iff.mp heq
      simp only at h1 h2
      subst h1
      subst h2
      right
      intro dv ps' hv'
      rw [mget_improve_eq] at hv'
      rcases hv' with ⟨-, rfl, rfl, -⟩ | ⟨hne, -⟩
      · exact ⟨le_refl _, fun _ => List.mem_singleton_self p⟩
      · exact absurd rfl hne
    · exact Or.inl hmem'
  · right
    intro dv ps' hv'
    rw [mget_improve_eq] at hv'
    rcases hv' with ⟨hueq, rfl, rfl, ⟨pr, hg⟩⟩ | ⟨-, hg⟩
    · have hold := hdirect d ps (hueq ▸ hv)
      refine ⟨by omega, fun _ => List.mem_singleton_self p⟩
    · exact hdirect dv ps' hg

theorem PExp.skip_step {g : Graph} {tbl : DistTable} {p v0 : Node}
    {c w0 d : Nat} {ps : List Node} {rem' : List (Node × Nat)}
    (hv : mget tbl v0 = some (d, ps)) (hd : d < c + w0)
    (hpexp : PExp g tbl p c ((v0, w0) :: rem')) :
    PExp g tbl p c rem' := by
  intro u w he
  rcases hpexp u w he with hmem | hdirect
  · rcases List.mem_cons.mp hmem with heq | hmem'
    · obtain ⟨h1, h2⟩ := Prod.ext_iff.mp heq
      simp only at h1 h2
      subst h1
      subst h2
      right
      intro dv ps' hv'
      rw [hv, Option.some_inj] at hv'
      obtain ⟨hh1, hh2⟩ := Prod.ext_iff.mp hv'
      simp only at hh1 hh2
      exact ⟨by omega, fun heq => by omega⟩
    · exact Or.inl hmem'
  · exact Or.inr hdirect

theorem foldInv_step_tie (g : Graph) (wf : GraphWF g) (s p : Node) (c : Nat)
    (v0 : Node) (w0 : Nat) (rem' : List (Node × Nat)) (tbl : DistTable)
    (heap : Frontier) (hedge : EdgeOf g p v0 w0)
    (hinv : FoldInv g s p c ((v0, w0) :: rem') tbl heap)
    (d : Nat) (ps : List Node) (hv : mget tbl v0 = some (d, ps))
    (hd : d = c + w0) :
    FoldInv g s p c rem'
      (mmod (fun pr => (pr.1, predsInsert p pr.2)) v0 tbl) heap := by
  have hw0 : 1 ≤ w0 := wf.posw p v0 w0 hedge
  obtain ⟨psp, hp⟩ := hinv.pfix
  have hnp : v0 ≠ p := by
    intro hh
    rw [hh, hp, Option.some_inj] at hv
    obtain ⟨h1, -⟩ := Prod.ext_iff.mp hv
    simp only at h1
    omega
  refine ⟨?_, ?_, ?_, ?_, ?_, ?_, ?_, hinv.sorted, ?_, ?_⟩
  · intro n
    rw [mget_mmod_none]
    exact hinv.keys n
  · intro hn
    exact hinv.srcKey ((mget_mmod_none _ _ _ _).mp hn)
  · intro d' ps' hs'
    rw [mget_predsIns_eq] at hs'
    rcases hs' with ⟨-, ps1, hg, -⟩ | ⟨-, hg⟩
    · exact hinv.src0 d' ps1 hg
    · exact hinv.src0 d' ps' hg
  · intro v d' ps' hv'
    rw [mget_predsIns_eq] at hv'
    rcases hv' with ⟨-, ps1, hg, -⟩ | ⟨-, hg⟩
    · exact hinv.bound v d' ps1 hg
    · exact hinv.bound v d' ps' hg
  · intro v d' ps' hv'
    rw [mget_predsIns_eq] at hv'
    rcases hv' with ⟨-, ps1, hg, -⟩ | ⟨-, hg⟩
    · exact hinv.ub v d' ps1 hg
    · exact hinv.ub v d' ps' hg
  · exact ⟨psp, by rw [mget_mmod_other _ _ _ _ hnp]; exact hp⟩
  · intro v c' hm
    obtain ⟨⟨d1, ps1, hg, hle⟩, hwalk⟩ := hinv.hs v c' hm
    obtain ⟨ps2, hg2, -⟩ := mget_predsIns_entry p v0 v tbl d1 ps1 hg
    exact ⟨⟨d1, ps2, hg2, hle⟩, hwalk⟩
  · intro v d' ps' hv' hlt'
    rw [mget_predsIns_eq] at hv'
    rcases hv' with ⟨rfl, ps1, hg, rfl⟩ | ⟨hne, hg⟩
    · rw [hv, Option.some_inj] at hg
      obtain ⟨h1, h2⟩ := Prod.ext_iff.mp hg
      simp only at h1 h2
      rcases hinv.gact v d ps hv (by omega) with hexp | hmem | ⟨hvp, -⟩
      · exact Or.inl (Expanded.predsInsert_mmod v p v hexp)
      · exact Or.inr (Or.inl (h1 ▸ hmem))
      · exact absurd hvp hnp
    · rcases hinv.gact v d' ps' hg hlt' with hexp | hmem | ⟨rfl, hpexp⟩
      · exact Or.inl (Expanded.predsInsert_mmod v0 p v hexp)
      · exact Or.inr (Or.inl hmem)
      · exact Or.inr (Or.inr ⟨rfl, PExp.tie_step hv hd hpexp⟩)
  · intro v d' ps' hv' q hq
    rw [mget_predsIns_eq] at hv'
    rcases hv' with ⟨rfl, ps1, hg, rfl⟩ | ⟨hne, hg⟩
    · rw [hv, Option.some_inj] at hg
      obtain ⟨h1, h2⟩ := Prod.ext_iff.mp hg
      simp only at h1 h2
      rw [mem_predsInsert] at hq
      rcases hq with rfl | hqps
      · refine ⟨w0, c, psp, hedge, ?_, Or.inl (by omega)⟩
        rw [mget_mmod_other _ _ _ _ hnp]
        exact hp
      · rw [← h2] at hqps
        obtain ⟨w, dq, psq, he, hgq, disj⟩ := hinv.psS v d ps hv q hqps
        obtain ⟨psq', hgq', -⟩ := mget_predsIns_entry p v q tbl dq psq hgq
        rcases disj with heq | ⟨hlt, hrest⟩
        · exact ⟨w, dq, psq', he, hgq', Or.inl (by omega)⟩
        · rcases hrest with hmem | ⟨rfl, w', hew', hmem', hcw'⟩
          · exact ⟨w, dq, psq', he, hgq', Or.inr ⟨by omega, Or.inl hmem⟩⟩
          · rcases List.mem_cons.mp hmem' with heq' | hmem''
            · refine ⟨w0, c, psp, hedge, ?_, Or.inl (by omega)⟩
              rw [mget_mmod_other _ _ _ _ hnp]
              exact hp
            · exact ⟨w, dq, psq', he, hgq',
                Or.inr ⟨by omega, Or.inr ⟨rfl, w', hew', hmem'', by omega⟩⟩⟩
    · obtain ⟨w, dq, psq, he, hgq, disj⟩ := hinv.psS v d' ps' hg q hq
      obtain ⟨psq', hgq', -⟩ := mget_predsIns_entry p v0 q tbl dq psq hgq
      rcases disj with heq | ⟨hlt, hrest⟩
      · exact ⟨w, dq, psq', he, hgq', Or.inl heq⟩
      · rcases hrest with hmem | ⟨rfl, w', hew', hmem', hcw'⟩
        · exact ⟨w, dq, psq', he, hgq', Or.inr ⟨hlt, Or.inl hmem⟩⟩
        · rcases List.mem_cons.mp hmem' with heq' | hmem''
          · obtain ⟨hv0, -⟩ := Prod.ext_iff.mp heq'
            simp only at hv0
            exact absurd hv0 hne
          · exact ⟨w, dq, psq', he, hgq',
              Or.inr ⟨hlt, Or.inr ⟨rfl, w', hew', hmem'', hcw'⟩⟩⟩

theorem foldInv_step_improve (g : Graph) (wf : GraphWF g) (s p : Node) (c : Nat)
    (v0 : Node) (w0 : Nat) (rem' : List (Node × Nat)) (tbl : DistTable)
    (heap : Frontier)
    (hwalkp : ∃ steps, IsWalk g s p steps ∧ walkWeight steps = c)
    (hedge : EdgeOf g p v0 w0)
    (hinv : FoldInv g s p c ((v0, w0) :: rem') tbl heap)
    (d : Nat) (ps : List Node) (hv : mget tbl v0 = some (d, ps))
    (hd : d > c + w0) :
    FoldInv g s p c rem' (mmod (fun _ => (c + w0, [p])) v0 tbl)
      (heapPush (v0, c + w0) heap) := by
  have hw0 : 1 ≤ w0 := wf.posw p v0 w0 hedge
  obtain ⟨psp, hp⟩ := hinv.pfix
  have hnp : v0 ≠ p := by
    intro hh
    rw [hh, hp, Option.some_inj] at hv
    obtain ⟨h1, -⟩ := Prod.ext_iff.mp hv
    simp only at h1
    omega
  obtain ⟨stepsP, hwP, hwPw⟩ := hwalkp
  have hwalkv0 : IsWalk g s v0 (stepsP ++ [(v0, w0)]) := hwP.snoc hedge
  have hwv0w : walkWeight (stepsP ++ [(v0, w0)]) = c + w0 := by
    rw [walkWeight_snoc, hwPw]
  refine ⟨?_, ?_, ?_, ?_, ?_, ?_, ?_, heapPush_sorted _ _ hinv.sorted, ?_, ?_⟩
  · intro n
    rw [mget_mmod_none]
    exact hinv.keys n
  · intro hn
    exact hinv.srcKey ((mget_mmod_none _ _ _ _).mp hn)
  · intro d' ps' hs'
    rw [mget_improve_eq] at hs'
    rcases hs' with ⟨hsv, rfl, rfl, -⟩ | ⟨-, hg⟩
    · have := hinv.src0 d ps (by rw [hsv]; exact hv)
      omega
    · exact hinv.src0 d' ps' hg
  · intro v d' ps' hv'
    rw [mget_improve_eq] at hv'
    rcases hv' with ⟨rfl, rfl, rfl, -⟩ | ⟨-, hg⟩
    · have := hinv.bound v d ps hv
      omega
    · exact hinv.bound v d' ps' hg
  · intro v d' ps' hv'
    rw [mget_improve_eq] at hv'
    rcases hv' with ⟨rfl, rfl, rfl, -⟩ | ⟨-, hg⟩
    · exact Or.inr ⟨stepsP ++ [(v, w0)], hwalkv0, hwv0w⟩
    · exact hinv.ub v d' ps' hg
  · exact ⟨psp, by rw [mget_mmod_other _ _ _ _ hnp]; exact hp⟩
  · intro v c' hm
    rcases (mem_heapPush _ _ _).mp hm with heq | hmem
    · obtain ⟨h1, h2⟩ := Prod.ext_iff.mp heq
      simp only at h1 h2
      subst h1
      subst h2
      exact ⟨⟨c + w0, [p], mget_mmod_at _ _ _ _ hv, le_refl _⟩,
        stepsP ++ [(v, w0)], hwalkv0, hwv0w⟩
    · obtain ⟨⟨d1, ps1, hg, hle⟩, hwalk⟩ := hinv.hs v c' hmem
      by_cases hvv : v = v0
      · subst hvv
        rw [hv, Option.some_inj] at hg
        obtain ⟨h1, -⟩ := Prod.ext_iff.mp hg
        simp only at h1
        exact ⟨⟨c + w0, [p], mget_mmod_at _ _ _ _ hv, by omega⟩, hwalk⟩
      · refine ⟨⟨d1, ps1, ?_, hle⟩, hwalk⟩
        rw [mget_mmod_other _ _ _ _ fun hh => hvv hh.symm]
        exact hg
  · intro v d' ps' hv' hlt'
    rw [mget_improve_eq] at hv'
    rcases hv' with ⟨rfl, rfl, rfl, -⟩ | ⟨hne, hg⟩
    · exact Or.inr (Or.inl ((mem_heapPush _ _ _).mpr (Or.inl rfl)))
    · rcases hinv.gact v d' ps' hg hlt' with hexp | hmem | ⟨rfl, hpexp⟩
      · refine Or.inl (Expanded.improve_mmod v0 p v (c + w0) hne ?_ hexp)
        intro d0 ps0 hg0
        rw [hv, Option.some_inj] at hg0
        obtain ⟨h1, -⟩ := Prod.ext_iff.mp hg0
        simp only at h1
        omega
      · exact Or.inr (Or.inl ((mem_heapPush _ _ _).mpr (Or.inr hmem)))
      · exact Or.inr (Or.inr ⟨rfl, PExp.improve_step hv hd hpexp⟩)
  · intro v d' ps' hv' q hq
    rw [mget_improve_eq] at hv'
    rcases hv' with ⟨rfl, rfl, rfl, -⟩ | ⟨hne, hg⟩
    · rw [List.mem_singleton] at hq
      subst hq
      refine ⟨w0, c, psp, hedge, ?_, Or.inl rfl⟩
      rw [mget_mmod_other _ _ _ _ hnp]
      exact hp
    · obtain ⟨w, dq, psq, he, hgq, disj⟩ := hinv.psS v d' ps' hg q hq
      by_cases hqv : q = v0
      · subst hqv
        rw [hv, Option.some_inj] at hgq
        obtain ⟨h1, -⟩ := Prod.ext_iff.mp hgq
        simp only at h1
        refine ⟨w, c + w0, [p], he, mget_mmod_at _ _ _ _ hv,
          Or.inr ⟨?_, Or.inl ((mem_heapPush _ _ _).mpr (Or.inl rfl))⟩⟩
        rcases disj with heq | ⟨hlt, -⟩ <;> omega
      · refine ⟨w, dq, psq, he, ?_, ?_⟩
        · rw [mget_mmod_other _ _ _ _ fun hh => hqv hh.symm]
          exact hgq
        · rcases disj with heq | ⟨hlt, hrest⟩
          · exact Or.inl heq
          · rcases hrest with hmem | ⟨rfl, w', hew', hmem', hcw'⟩
            · exact Or.inr ⟨hlt, Or.inl ((mem_heapPush _ _ _).mpr (Or.inr hmem))⟩
            · rcases List.mem_cons.mp hmem' with heq' | hmem''
              · obtain ⟨hv0, -⟩ := Prod.ext_iff.mp heq'
                simp only at hv0
                exact absurd hv0 hne
              · exact Or.inr ⟨hlt, Or.inr ⟨rfl, w', hew', hmem'', hcw'⟩⟩

theorem foldInv_step_skip (g : Graph) (s p : Node) (c : Nat)
    (v0 : Node) (w0 : Nat) (rem' : List (Node × Nat)) (tbl : DistTable)
    (heap : Frontier)
    (hinv : FoldInv g s p c ((v0, w0) :: rem') tbl heap)
    (d : Nat) (ps : List Node) (hv : mget tbl v0 = some (d, ps))
    (hd : d < c + w0) :
    FoldInv g s p c rem' tbl heap := by
  refine ⟨hinv.keys, hinv.srcKey, hinv.src0, hinv.bound, hinv.ub, hinv.pfix,
    hinv.hs, hinv.sorted, ?_, ?_⟩
  · intro v d' ps' hv' hlt'
    rcases hinv.gact v d' ps' hv' hlt' with hexp | hmem | ⟨rfl, hpexp⟩
    · exact Or.inl hexp
    · exact Or.inr (Or.inl hmem)
    · exact Or.inr (Or.inr ⟨rfl, PExp.skip_step hv hd hpexp⟩)
  · intro v d' ps' hv' q hq
    obtain ⟨w, dq, psq, he, hgq, disj⟩ := hinv.psS v d' ps' hv' q hq
    refine ⟨w, dq, psq, he, hgq, ?_⟩
    rcases disj with heq | ⟨hlt, hrest⟩
    · exact Or.inl heq
    · rcases hrest with hmem | ⟨rfl, w', hew', hmem', hcw'⟩
      · exact Or.inr ⟨hlt, Or.inl hmem⟩
      · rcases List.mem_cons.mp hmem' with heq' | hmem''
        · obtain ⟨hv0, hw'⟩ := Prod.ext_iff.mp heq'
          simp only at hv0 hw'
          rw [hv0, hv, Option.some_inj] at hv'
          obtain ⟨h1, -⟩ := Prod.ext_iff.mp hv'
          simp only at h1
          omega
        · exact Or.inr ⟨hlt, Or.inr ⟨rfl, w', hew', hmem'', hcw'⟩⟩

theorem foldInv_run (g : Graph) (wf : GraphWF g) (s p : Node) (c : Nat)
    (hwalkp : ∃ steps, IsWalk g s p steps ∧ walkWeight steps = c) :
    ∀ (rem : List (Node × Nat)) (tbl : DistTable) (heap : Frontier),
      (∀ e ∈ rem, EdgeOf g p e.1 e.2) → FoldInv g s p c rem tbl heap →
      FoldInv g s p c [] (rem.foldl (relaxOne p c) (tbl, heap)).1
        (rem.foldl (relaxOne p c) (tbl, heap)).2 := by
  intro rem
  induction rem with
  | nil =>
    intro tbl heap _ hinv
    exact hinv
  | cons e rest ih =>
    intro tbl heap hrem hinv
    obtain ⟨v0, w0⟩ := e
    have hedge := hrem (v0, w0) (List.mem_cons_self _ _)
    rw [List.foldl_cons]
    have hstep : FoldInv g s p c rest (relaxOne p c (tbl, heap) (v0, w0)).1
        (relaxOne p c (tbl, heap) (v0, w0)).2 := by
      rcases relaxOne_cases p c tbl heap (v0, w0) with ⟨hnone, heq⟩ |
        ⟨d, ps, hv, hcases⟩
      · exact absurd ((hinv.keys v0).mp hnone) (wf.closed p v0 w0 hedge)
      · rcases hcases with ⟨hd, heq⟩ | ⟨hd, heq⟩ | ⟨hd, heq⟩
        · rw [heq]
          exact foldInv_step_tie g wf s p c v0 w0 rest tbl heap hedge hinv d ps hv hd
        · rw [heq]
          exact foldInv_step_improve g wf s p c v0 w0 rest tbl heap hwalkp hedge
            hinv d ps hv hd
        · rw [heq]
          exact foldInv_step_skip g s p c v0 w0 rest tbl heap hinv d ps hv hd
    exact ih (relaxOne p c (tbl, heap) (v0, w0)).1
      (relaxOne p c (tbl, heap) (v0, w0)).2
      (fun e' he' => hrem e' (List.mem_cons_of_mem _ he')) hstep

theorem loopInv_start_fold (g : Graph) (s p : Node) (c : Nat)
    (rest : Frontier) (tbl : DistTable)
    (hinv : LoopInv g s tbl ((p, c) :: rest)) (psp : List Node)
    (hp : mget tbl p = some (c, psp)) (nbrs : List (Node × Nat))
    (hadj : mget g.adj_list p = some nbrs) :
    FoldInv g s p c nbrs tbl rest := by
  refine ⟨hinv.keys, hinv.srcKey, hinv.src0, hinv.bound, hinv.ub, ⟨psp, hp⟩, ?_,
    (List.pairwise_cons.mp hinv.sorted).2, ?_, ?_⟩
  · intro v c' hm
    exact hinv.hs v c' (List.mem_cons_of_mem _ hm)
  · intro v d' ps' hv' hlt'
    rcases hinv.gact v d' ps' hv' hlt' with hexp | hmem
    · exact Or.inl hexp
    · rcases List.mem_cons.mp hmem with heq | hmem'
      · obtain ⟨h1, h2⟩ := Prod.ext_iff.mp heq
        simp only at h1 h2
        subst h1
        refine Or.inr (Or.inr ⟨rfl, ?_⟩)
        intro u w he
        left
        unfold EdgeOf adjOf at he
        rw [hadj] at he
        simpa using he
      · exact Or.inr (Or.inl hmem')
  · intro v d' ps' hv' q hq
    obtain ⟨w, dq, psq, he, hgq, disj⟩ := hinv.psS v d' ps' hv' q hq
    refine ⟨w, dq, psq, he, hgq, ?_⟩
    rcases disj with heq | ⟨hlt, hmem⟩
    · exact Or.inl heq
    · rcases List.mem_cons.mp hmem with heq' | hmem'
      · obtain ⟨h1, h2⟩ := Prod.ext_iff.mp heq'
        simp only at h1 h2
        subst h1
        subst h2
        refine Or.inr ⟨hlt, Or.inr ⟨rfl, w, he, ?_, by omega⟩⟩
        unfold EdgeOf adjOf at he
        rw [hadj] at he
        simpa using he
      · exact Or.inr ⟨hlt, Or.inl hmem'⟩

theorem foldInv_done (g : Graph) (s p : Node) (c : Nat) (tbl : DistTable)
    (heap : Frontier) (hinv : FoldInv g s p c [] tbl heap) :
    LoopInv g s tbl heap := by
  refine ⟨hinv.keys, hinv.srcKey, hinv.src0, hinv.bound, hinv.ub, hinv.hs,
    hinv.sorted, ?_, ?_⟩
  · intro v d' ps' hv' hlt'
    rcases hinv.gact v d' ps' hv' hlt' with hexp | hmem | ⟨rfl, hpexp⟩
    · exact Or.inl hexp
    · exact Or.inr hmem
    · left
      intro dp psp hp u w he du psu hu
      rcases hpexp u w he with hmem | hdirect
      · simp at hmem
      · obtain ⟨psp0, hp0⟩ := hinv.pfix
        rw [hp0, Option.some_inj] at hp
        obtain ⟨h1, -⟩ := Prod.ext_iff.mp hp
        simp only at h1
        rw [← h1]
        exact hdirect du psu hu
  · intro v d' ps' hv' q hq
    obtain ⟨w, dq, psq, he, hgq, disj⟩ := hinv.psS v d' ps' hv' q hq
    refine ⟨w, dq, psq, he, hgq, ?_⟩
    rcases disj with heq | ⟨hlt, hmem | ⟨-, w', -, hmem', -⟩⟩
    · exact Or.inl heq
    · exact Or.inr ⟨hlt, hmem⟩
    · simp at hmem'

/-- Full specification of dijkstra's main loop: with fuel above the measure
the loop returns, the final table satisfies the Final facts, and every pop
event was processed (never discarded) with committed distance at most the
popped cost. -/
theorem dijkstraLoop_spec (g : Graph) (wf : GraphWF g) (s : Node) :
    ∀ (fuel : Nat) (tbl : DistTable) (heap : Frontier),
      sumDist tbl + heap.length < fuel → LoopInv g s tbl heap →
      ∃ tbl' events, dijkstraLoop g fuel tbl heap = some (tbl', events) ∧
        Final g s tbl' ∧ ∀ e ∈ events, e.skipped = false ∧ e.committed ≤ e.cost := by
  intro fuel
  induction fuel with
  | zero =>
    intro tbl heap hm _
    omega
  | succ f ih =>
    intro tbl heap hm hinv
    cases heap with
    | nil =>
      exact ⟨tbl, [], rfl, hinv.final, by simp⟩
    | cons hd rest =>
      obtain ⟨node, cost⟩ := hd
      obtain ⟨⟨d, ps, hget, hdc⟩, hwalk⟩ :=
        hinv.hs node cost (List.mem_cons_self _ _)
      have hadjne : mget g.adj_list node ≠ none := by
        intro hn
        rw [← hinv.keys node, hget] at hn
        simp at hn
      cases hadj : mget g.adj_list node with
      | none => exact absurd hadj hadjne
      | some nbrs =>
        have hremedges : ∀ e ∈ nbrs, EdgeOf g node e.1 e.2 := by
          intro e he
          unfold EdgeOf adjOf
          rw [hadj]
          simpa using he
        have heq : dijkstraLoop g (f + 1) tbl ((node, cost) :: rest) =
            (dijkstraLoop g f (nbrs.foldl (relaxOne node cost) (tbl, rest)).1
              (nbrs.foldl (relaxOne node cost) (tbl, rest)).2).map fun r =>
              (r.1, ⟨node, cost, d, false⟩ :: r.2) := by
          simp only [dijkstraLoop]
          rw [hget]
          dsimp only
          rw [if_neg (by omega), hadj]
        rw [heq]
        have hmeasure := foldl_relax_measure node cost nbrs (tbl, rest)
        dsimp only at hmeasure
        simp only [List.length_cons] at hm
        by_cases hdcost : d = cost
        · subst hdcost
          have hfold0 := loopInv_start_fold g s node d rest tbl hinv ps hget nbrs hadj
          have hfoldF := foldInv_run g wf s node d hwalk nbrs tbl rest hremedges hfold0
          have hinv' := foldInv_done g s node d _ _ hfoldF
          obtain ⟨tbl', events, hrun, hfinal, hev⟩ :=
            ih (nbrs.foldl (relaxOne node d) (tbl, rest)).1
              (nbrs.foldl (relaxOne node d) (tbl, rest)).2 (by omega) hinv'
          refine ⟨tbl', ⟨node, d, d, false⟩ :: events, ?_, hfinal, ?_⟩
          · rw [hrun]
            rfl
          · intro e he
            rcases List.mem_cons.mp he with rfl | he'
            · exact ⟨rfl, le_refl _⟩
            · exact hev e he'
        · have hdlt : d < cost := by omega
          have hsmall : ∀ v w, EdgeOf g node v w → ∀ dv ps',
              mget tbl v = some (dv, ps') → dv < cost + w := by
            intro v w he dv ps' hv'
            by_cases hdm : d < usizeMAX
            · rcases hinv.gact node d ps hget hdm with hexp | hmem
              · have := hexp d ps hget v w he dv ps' hv'
                omega
              · rcases List.mem_cons.mp hmem with heq' | hmem'
                · obtain ⟨-, h2⟩ := Prod.ext_iff.mp heq'
                  simp only at h2
                  omega
                · have hfalse := (List.pairwise_cons.mp hinv.sorted).1 (node, d) hmem'
                  have := heLtB_false_cost hfalse
                  simp only at this
                  omega
            · have hb := hinv.bound node d ps hget
              have hbv := hinv.bound v dv ps' hv'
              omega
          have hnoop := foldl_relax_noop g node cost tbl rest hsmall nbrs hremedges
          rw [hnoop]
          have htail : LoopInv g s tbl rest := by
            refine hinv.tail ?_
            intro dp psp hp
            rw [hget, Option.some_inj] at hp
            obtain ⟨h1, -⟩ := Prod.ext_iff.mp hp
            simp only at h1
            omega
          obtain ⟨tbl', events, hrun, hfinal, hev⟩ := ih tbl rest (by omega) htail
          refine ⟨tbl', ⟨node, cost, d, false⟩ :: events, ?_, hfinal, ?_⟩
          · rw [hrun]
            rfl
          · intro e he
            rcases List.mem_cons.mp he with rfl | he'
            · exact ⟨rfl, by simpa using hdc⟩
            · exact hev e he'

/-- The invariant holds for dijkstra's initial table and frontier. -/
theorem init_loopInv (g : Graph) (s : Node) (adjs : List (Node × Nat))
    (hadj : mget g.adj_list s = some adjs) :
    LoopInv g s
      (mmod (fun p => (0, p.2)) s (mmap (fun _ => (usizeMAX, ([] : List Node))) g.adj_list))
      [(s, 0)] := by
  have hrec0 : ∀ n, mget (mmap (fun _ => (usizeMAX, ([] : List Node))) g.adj_list) n =
      (mget g.adj_list n).map fun _ => (usizeMAX, ([] : List Node)) :=
    fun n => mget_mmap _ g.adj_list n
  have hr0s : mget (mmap (fun _ => (usizeMAX, ([] : List Node))) g.adj_list) s =
      some (usizeMAX, []) := by
    rw [hrec0, hadj]
    rfl
  have hr1s : mget (mmod (fun p => (0, p.2)) s
      (mmap (fun _ => (usizeMAX, ([] : List Node))) g.adj_list)) s = some (0, []) := by
    have h := mget_mmod_at (fun p => ((0 : Nat), p.2)) s _ _ hr0s
    exact h
  have hr1o : ∀ n, n ≠ s → mget (mmod (fun p => (0, p.2)) s
      (mmap (fun _ => (usizeMAX, ([] : List Node))) g.adj_list)) n =
      (mget g.adj_list n).map fun _ => (usizeMAX, ([] : List Node)) := by
    intro n hn
    rw [mget_mmod_other _ _ _ _ fun hh => hn hh.symm]
    exact hrec0 n
  have hent : ∀ n d ps, mget (mmod (fun p => (0, p.2)) s
      (mmap (fun _ => (usizeMAX, ([] : List Node))) g.adj_list)) n = some (d, ps) →
      ps = [] ∧ (d = usizeMAX ∨ (n = s ∧ d = 0)) := by
    intro n d ps hn
    by_cases hns : n = s
    · subst hns
      rw [hr1s, Option.some_inj] at hn
      obtain ⟨h1, h2⟩ := Prod.ext_iff.mp hn
      simp only at h1 h2
      exact ⟨h2.symm, Or.inr ⟨rfl, h1.symm⟩⟩
    · rw [hr1o n hns] at hn
      cases hg : mget g.adj_list n with
      | none => rw [hg] at hn; simp at hn
      | some l =>
        rw [hg, Option.map_some', Option.some_inj] at hn
        obtain ⟨h1, h2⟩ := Prod.ext_iff.mp hn
        simp only at h1 h2
        exact ⟨h2.symm, Or.inl h1.symm⟩
  refine ⟨?_, ?_, ?_, ?_, ?_, ?_, ?_, ?_, ?_⟩
  · intro n
    by_cases hns : n = s
    · subst hns
      rw [hr1s, hadj]
      simp
    · rw [hr1o n hns]
      cases mget g.adj_list n <;> simp
  · rw [hr1s]
    simp
  · intro d ps h
    rw [hr1s, Option.some_inj] at h
    obtain ⟨h1, -⟩ := Prod.ext_iff.mp h
    simp only at h1
    omega
  · intro v d ps hv
    rcases (hent v d ps hv).2 with rfl | ⟨-, rfl⟩
    · exact le_refl _
    · exact Nat.zero_le _
  · intro v d ps hv
    rcases (hent v d ps hv).2 with rfl | ⟨rfl, rfl⟩
    · exact Or.inl rfl
    · exact Or.inr ⟨[], IsWalk.nil g v, rfl⟩
  · intro v c hm
    rw [List.mem_singleton] at hm
    obtain ⟨h1, h2⟩ := Prod.ext_iff.mp hm
    simp only at h1 h2
    subst h1
    subst h2
    exact ⟨⟨0, [], hr1s, le_refl _⟩, [], IsWalk.nil g v, rfl⟩
  · exact List.pairwise_singleton _ _
  · intro v d ps hv hlt
    rcases (hent v d ps hv).2 with rfl | ⟨rfl, rfl⟩
    · omega
    · exact Or.inr (List.mem_singleton_self _)
  · intro v d ps hv q hq
    rw [(hent v d ps hv).1] at hq
    simp at hq

/-- Top-level specification of dijkstra on a well-formed graph whose source
is one of the keys: the run returns a table satisfying all Final facts, and
no pop event was ever discarded by the stale guard. -/
theorem dijkstra_spec (g : Graph) (wf : GraphWF g) (s : Node)
    (hs : mget g.adj_list s ≠ none) :
    ∃ tbl events, dijkstraFull g s = some (tbl, events) ∧ Final g s tbl ∧
      (∀ e ∈ events, e.skipped = false ∧ e.committed ≤ e.cost) ∧
      dijkstra g s = some tbl := by
  cases hadj : mget g.adj_list s with
  | none => exact absurd hadj hs
  | some adjs =>
    have hinv := init_loopInv g s adjs hadj
    have hr0s : mget (mmap (fun _ => (usizeMAX, ([] : List Node))) g.adj_list) s =
        some (usizeMAX, []) := by
      rw [mget_mmap, hadj]
      rfl
    obtain ⟨tbl, events, hrun, hfinal, hev⟩ :=
      dijkstraLoop_spec g wf s
        (sumDist (mmod (fun p => (0, p.2)) s
          (mmap (fun _ => (usizeMAX, ([] : List Node))) g.adj_list)) + 2)
        (mmod (fun p => (0, p.2)) s
          (mmap (fun _ => (usizeMAX, ([] : List Node))) g.adj_list))
        [(s, 0)] (by simp) hinv
    have hfull : dijkstraFull g s = some (tbl, events) := by
      unfold dijkstraFull
      dsimp only
      rw [hr0s]
      exact hrun
    refine ⟨tbl, events, hfull, hfinal, hev, ?_⟩
    unfold dijkstra
    rw [hfull]
    rfl

/-- When the source is not a key of the graph, dijkstra panics (models the
unwrap of None in result.get_mut(&from).unwrap()). -/
theorem dijkstraFull_none (g : Graph) (s : Node)
    (hs : mget g.adj_list s = none) : dijkstraFull g s = none := by
  unfold dijkstraFull
  dsimp only
  rw [mget_mmap, hs]
  rfl

theorem dijkstra_none (g : Graph) (s : Node)
    (hs : mget g.adj_list s = none) : dijkstra g s = none := by
  unfold dijkstra
  rw [dijkstraFull_none g s hs]
  rfl

/-- The endpoint of a walk from a key is again a key. -/
theorem walk_end_key (g : Graph) (wf : GraphWF g) (s : Node)
    (hkey : mget g.adj_list s ≠ none) :
    ∀ (steps : List (Node × Nat)) (v : Node), IsWalk g s v steps →
      mget g.adj_list v ≠ none := by
  intro steps
  induction steps using List.reverseRecOn with
  | nil =>
    intro v hw
    obtain ⟨-, hend⟩ := hw
    rw [← hend]
    exact hkey
  | append_singleton l e ih =>
    intro v hw
    obtain ⟨hev, -, hedge⟩ := hw.snoc_elim
    rw [← hev]
    exact wf.closed _ _ _ hedge

/-- After a complete run, every recorded distance is at most the weight of
any walk from the source whose weight stays below the sentinel. -/
theorem final_dist_le_walk (g : Graph) (wf : GraphWF g) (s : Node)
    (tbl : DistTable) (hfin : Final g s tbl) :
    ∀ (steps : List (Node × Nat)) (v : Node), IsWalk g s v steps →
      walkWeight steps < usizeMAX →
      ∀ d ps, mget tbl v = some (d, ps) → d ≤ walkWeight steps := by
  intro steps
  induction steps using List.reverseRecOn with
  | nil =>
    intro v hw _ d ps hv
    obtain ⟨-, hend⟩ := hw
    rw [← hend] at hv
    rw [hfin.src0 d ps hv]
    exact Nat.zero_le _
  | append_singleton l e ih =>
    intro v hw hwt d ps hv
    obtain ⟨hev, hwl, hedge⟩ := hw.snoc_elim
    obtain ⟨u, hu⟩ : ∃ u, u = walkEnd s l := ⟨walkEnd s l, rfl⟩
    rw [← hu] at hwl hedge
    have hukey : mget g.adj_list u ≠ none := by
      have hskey : mget g.adj_list s ≠ none := by
        intro hn
        exact hfin.srcKey ((hfin.keys s).mpr hn)
      exact walk_end_key g wf s hskey l u hwl
    have hutbl : mget tbl u ≠ none := fun hn => hukey ((hfin.keys u).mp hn)
    cases hget : mget tbl u with
    | none => exact absurd hget hutbl
    | some pr =>
      obtain ⟨du, psu⟩ := pr
      obtain ⟨v0, w0⟩ := e
      rw [walkWeight_snoc] at hwt ⊢
      have hle := ih u hwl (by omega) du psu hget
      have hdu : du < usizeMAX := by omega
      have hexp := hfin.expAll u du psu hget hdu
      simp only at hev
      rw [← hev] at hv
      have := (hexp du psu hget v0 w0 hedge d ps hv).1
      omega

/-- After a complete run, a state unreachable from the source keeps the
sentinel distance and an empty predecessor set (weights are positive). -/
theorem final_unreachable (g : Graph) (wf : GraphWF g) (s : Node)
    (tbl : DistTable) (hfin : Final g s tbl) (v : Node)
    (hnr : ¬Reaches g s v) :
    ∀ d ps, mget tbl v = some (d, ps) → d = usizeMAX ∧ ps = [] := by
  intro d ps hv
  have hdmax : d = usizeMAX := by
    rcases hfin.ub v d ps hv with h | ⟨steps, hw, -⟩
    · exact h
    · exact absurd ⟨steps, hw⟩ hnr
  subst hdmax
  refine ⟨rfl, List.eq_nil_iff_forall_not_mem.mpr ?_⟩
  intro q hq
  obtain ⟨w, dq, psq, he, hgq, heq⟩ := hfin.psEq v usizeMAX ps hv q hq
  have hw1 : 1 ≤ w := wf.posw q v w he
  have hbq : dq ≤ usizeMAX := hfin.bound q dq psq hgq
  have hdq : dq < usizeMAX := by omega
  rcases hfin.ub q dq psq hgq with h | ⟨steps, hwq, -⟩
  · omega
  · exact hnr ⟨steps ++ [(v, w)], hwq.snoc he⟩

/-- After a complete run, the distance of a state reachable by some walk of
weight below the sentinel is attained by a walk and minimal among all walks. -/
theorem final_dist_min (g : Graph) (wf : GraphWF g) (s : Node)
    (tbl : DistTable) (hfin : Final g s tbl) (v : Node)
    (steps0 : List (Node × Nat)) (hw0 : IsWalk g s v steps0)
    (hsmall : walkWeight steps0 < usizeMAX) :
    ∀ d ps, mget tbl v = some (d, ps) →
      (∃ steps, IsWalk g s v steps ∧ walkWeight steps = d) ∧
        ∀ steps, IsWalk g s v steps → d ≤ walkWeight steps := by
  intro d ps hv
  have hle0 := final_dist_le_walk g wf s tbl hfin steps0 v hw0 hsmall d ps hv
  constructor
  · rcases hfin.ub v d ps hv with h | h
    · omega
    · exact h
  · intro steps hw
    by_cases hwt : walkWeight steps < usizeMAX
    · exact final_dist_le_walk g wf s tbl hfin steps v hw hwt d ps hv
    · have := hfin.bound v d ps hv
      omega

/-- After a complete run the predecessor set of every v is exactly the set of
in-neighbors whose recorded distance plus edge weight equals v's distance. -/
theorem final_preds_iff (g : Graph) (wf : GraphWF g) (s : Node)
    (tbl : DistTable) (hfin : Final g s tbl) (v : Node) (d : Nat)
    (ps : List Node) (hv : mget tbl v = some (d, ps)) (q : Node) :
    q ∈ ps ↔ ∃ w dq psq, EdgeOf g q v w ∧ mget tbl q = some (dq, psq) ∧
      dq + w = d := by
  constructor
  · exact fun hq => hfin.psEq v d ps hv q hq
  · rintro ⟨w, dq, psq, he, hgq, heq⟩
    have hw1 : 1 ≤ w := wf.posw q v w he
    have hd : d ≤ usizeMAX := hfin.bound v d ps hv
    have hdq : dq < usizeMAX := by omega
    have hexp := hfin.expAll q dq psq hgq hdq
    exact (hexp dq psq hgq v w he d ps hv).2 heq.symm

/-! ### Backward reconstruction along predecessor sets -/

/-- u lies in the backward closure of the predecessor sets from target t. -/
inductive PredReach (tbl : DistTable) (t : Node) : Node → Prop
  | refl : PredReach tbl t t
  | step {u p : Node} {d : Nat} {ps : List Node} : PredReach tbl t u →
      mget tbl u = some (d, ps) → p ∈ ps → PredReach tbl t p

theorem PredReach.trans {tbl : DistTable} {t u x : Node}
    (h1 : PredReach tbl u x) (h2 : PredReach tbl t u) : PredReach tbl t x := by
  induction h1 with
  | refl => exact h2
  | step hr hu hp ih => exact PredReach.step ih hu hp

/-- Prepend an edge to a walk. -/
theorem IsWalk.cons {g : Graph} {u v t : Node} {w : Nat}
    {steps : List (Node × Nat)} (he : EdgeOf g u v w) (hw : IsWalk g v t steps) :
    IsWalk g u t ((v, w) :: steps) := by
  obtain ⟨hok, hend⟩ := hw
  refine ⟨?_, ?_⟩
  · simp [stepsOkB, he, hok]
  · simpa [walkEnd] using hend

/-- Concatenation of walks. -/
theorem IsWalk.append {g : Graph} {s u t : Node} {l1 l2 : List (Node × Nat)}
    (h1 : IsWalk g s u l1) (h2 : IsWalk g u t l2) :
    IsWalk g s t (l1 ++ l2) := by
  obtain ⟨hok1, hend1⟩ := h1
  obtain ⟨hok2, hend2⟩ := h2
  refine ⟨?_, ?_⟩
  · rw [stepsOkB_append, hok1, hend1, hok2]
    rfl
  · rw [walkEnd_append, hend1, hend2]

theorem walkWeight_cons (v : Node) (w : Nat) (steps : List (Node × Nat)) :
    walkWeight ((v, w) :: steps) = w + walkWeight steps := by
  simp [walkWeight]

/-- Anything in the backward closure of t has a walk onward to t making up
exactly the distance difference. -/
theorem predreach_suffix (g : Graph) (s : Node) (tbl : DistTable)
    (hfin : Final g s tbl) (t : Node) (dt : Nat) (pst : List Node)
    (ht : mget tbl t = some (dt, pst)) :
    ∀ u, PredReach tbl t u → ∃ du psu steps, mget tbl u = some (du, psu) ∧
      IsWalk g u t steps ∧ du + walkWeight steps = dt := by
  intro u h
  induction h with
  | refl => exact ⟨dt, pst, [], ht, IsWalk.nil g t, by simp [walkWeight]⟩
  | step hr hu hp ih =>
    rename_i u0 p d0 ps0
    obtain ⟨du0, psu0, steps, hget0, hwalk, hsum⟩ := ih
    rw [hu, Option.some_inj] at hget0
    obtain ⟨h1, -⟩ := Prod.ext_iff.mp hget0
    obtain ⟨w, dp, psp, he, hgp, heqd⟩ := hfin.psEq u0 d0 ps0 hu p hp
    refine ⟨dp, psp, (u0, w) :: steps, hgp, IsWalk.cons he hwalk, ?_⟩
    rw [walkWeight_cons]
    simp only at h1
    omega

/-- The endpoint of a walk is among its nodes. -/
theorem walkEnd_mem_walkNodes (s : Node) (steps : List (Node × Nat)) :
    walkEnd s steps ∈ walkNodes s steps := by
  induction steps generalizing s with
  | nil => simp [walkEnd, walkNodes]
  | cons e rest ih =>
    obtain ⟨v, w⟩ := e
    have h := ih v
    simp only [walkNodes, walkEnd, List.map_cons]
    exact List.mem_cons_of_mem s (by simpa [walkNodes] using h)

/-- Every node of a minimum-weight walk to t is in the backward closure of t. -/
theorem min_walk_predreach (g : Graph) (wf : GraphWF g) (s : Node)
    (tbl : DistTable) (hfin : Final g s tbl) :
    ∀ (steps : List (Node × Nat)) (v : Node) (d : Nat) (ps : List Node),
      IsWalk g s v steps → mget tbl v = some (d, ps) → walkWeight steps = d →
      ∀ u, u ∈ walkNodes s steps → PredReach tbl v u := by
  intro steps
  induction steps using List.reverseRecOn with
  | nil =>
    intro v d ps hw hv hwt u hu
    obtain ⟨-, hend⟩ := hw
    simp only [walkNodes, List.map_nil, List.mem_singleton] at hu
    subst hu
    rw [← hend]
    exact PredReach.refl
  | append_singleton l e ih =>
    intro v d ps hw hv hwt u hu
    obtain ⟨v0, w0⟩ := e
    obtain ⟨hev, hwl, hedge⟩ := hw.snoc_elim
    simp only at hev
    subst hev
    rw [walkWeight_snoc] at hwt
    have hw0 : 1 ≤ w0 := wf.posw _ _ _ hedge
    have hd : d ≤ usizeMAX := hfin.bound v0 d ps hv
    -- the table entry of the walk's second-to-last node
    have hukey : mget g.adj_list (walkEnd s l) ≠ none := by
      have hskey : mget g.adj_list s ≠ none := by
        intro hn
        exact hfin.srcKey ((hfin.keys s).mpr hn)
      exact walk_end_key g wf s hskey l (walkEnd s l) hwl
    cases hget : mget tbl (walkEnd s l) with
    | none => exact absurd ((hfin.keys (walkEnd s l)).mp hget) hukey
    | some pr =>
      obtain ⟨du, psu⟩ := pr
      have hle := final_dist_le_walk g wf s tbl hfin l (walkEnd s l) hwl
        (by omega) du psu hget
      have hdu : du < usizeMAX := by omega
      have hexp := hfin.expAll (walkEnd s l) du psu hget hdu
      have htri := hexp du psu hget v0 w0 hedge d ps hv
      -- equalities force du = weight l and d = du + w0
      have hdeq : d = du + w0 := by omega
      have hdueq : du = walkWeight l := by omega
      have humem : walkEnd s l ∈ ps := htri.2 hdeq
      have hstep : PredReach tbl v0 (walkEnd s l) :=
        PredReach.step PredReach.refl hv humem
      simp only [walkNodes, List.map_append, List.map_cons, List.map_nil,
        List.mem_cons, List.mem_append, List.mem_singleton, List.not_mem_nil,
        or_false] at hu
      rcases hu with hus | hul | huv
      · have hm : u ∈ walkNodes s l := by
          rw [hus]
          exact List.mem_cons_self _ _
        exact (ih (walkEnd s l) du psu hwl hget hdueq.symm u hm).trans hstep
      · have hm : u ∈ walkNodes s l := List.mem_cons_of_mem _ hul
        exact (ih (walkEnd s l) du psu hwl hget hdueq.symm u hm).trans hstep
      · subst huv
        exact PredReach.refl

/-- Unfolding: the backward walk with an empty queue returns the seen set. -/
theorem part2Walk_nil (tbl : DistTable) (fuel : Nat) (seen : List (Nat × Nat)) :
    part2Walk tbl fuel seen [] = some seen := by
  cases fuel <;> rfl

/-- Unfolding: one pop of the backward walk. -/
theorem part2Walk_cons (tbl : DistTable) (fuel : Nat) (seen : List (Nat × Nat))
    (node : Node) (queue : List Node) :
    part2Walk tbl (fuel + 1) seen (node :: queue) =
      match mget tbl node with
      | none => none
      | some (_, preds) =>
        part2Walk tbl fuel (posInsert (node.x, node.y) seen) (queue ++ preds) := rfl

theorem mem_posInsert (p c : Nat × Nat) (l : List (Nat × Nat)) :
    c ∈ posInsert p l ↔ c = p ∨ c ∈ l := by
  unfold posInsert
  by_cases hp : p ∈ l
  · rw [if_pos hp]
    constructor
    · exact fun h => Or.inr h
    · rintro (rfl | h)
      · exact hp
      · exact h
  · rw [if_neg hp]
    exact List.mem_cons

/-- One-step decomposition of the backward closure of a node. -/
theorem predreach_decomp (tbl : DistTable) (t : Node) (d : Nat)
    (ps : List Node) (ht : mget tbl t = some (d, ps)) (u : Node) :
    PredReach tbl t u ↔ u = t ∨ ∃ p, p ∈ ps ∧ PredReach tbl p u := by
  constructor
  · intro h
    induction h with
    | refl => exact Or.inl rfl
    | step hr hu hp ih =>
      rename_i u0 p d0 ps0
      rcases ih with he | ⟨q, hq, hqr⟩
      · rw [he, ht] at hu
        obtain ⟨-, h2⟩ := Prod.ext_iff.mp (Option.some_inj.mp hu)
        simp only at h2
        refine Or.inr ⟨p, ?_, PredReach.refl⟩
        rw [h2]
        exact hp
      · exact Or.inr ⟨q, hq, PredReach.step hqr hu hp⟩
  · rintro (rfl | ⟨p, hps, hr⟩)
    · exact PredReach.refl
    · exact hr.trans (PredReach.step PredReach.refl ht hps)

/-- The cells the backward closure of the queue contributes. -/
def queueClosure (tbl : DistTable) (queue : List Node) (c : Nat × Nat) : Prop :=
  ∃ n u, n ∈ queue ∧ PredReach tbl n u ∧ c = (u.x, u.y)

theorem queueClosure_append (tbl : DistTable) (q1 q2 : List Node) (c : Nat × Nat) :
    queueClosure tbl (q1 ++ q2) c ↔ queueClosure tbl q1 c ∨ queueClosure tbl q2 c := by
  unfold queueClosure
  constructor
  · rintro ⟨n, u, hn, hr, hc⟩
    rcases List.mem_append.mp hn with h | h
    · exact Or.inl ⟨n, u, h, hr, hc⟩
    · exact Or.inr ⟨n, u, h, hr, hc⟩
  · rintro (⟨n, u, hn, hr, hc⟩ | ⟨n, u, hn, hr, hc⟩)
    · exact ⟨n, u, List.mem_append.mpr (Or.inl hn), hr, hc⟩
    · exact ⟨n, u, List.mem_append.mpr (Or.inr hn), hr, hc⟩

theorem queueClosure_cons (tbl : DistTable) (node : Node) (rest : List Node)
    (c : Nat × Nat) :
    queueClosure tbl (node :: rest) c ↔
      (∃ u, PredReach tbl node u ∧ c = (u.x, u.y)) ∨ queueClosure tbl rest c := by
  unfold queueClosure
  constructor
  · rintro ⟨n, u, hn, hr, hc⟩
    rcases List.mem_cons.mp hn with he | h
    · subst he
      exact Or.inl ⟨u, hr, hc⟩
    · exact Or.inr ⟨n, u, h, hr, hc⟩
  · rintro (⟨u, hr, hc⟩ | ⟨n, u, hn, hr, hc⟩)
    · exact ⟨node, u, List.mem_cons_self _ _, hr, hc⟩
    · exact ⟨n, u, List.mem_cons_of_mem _ hn, hr, hc⟩

/-- Membership in the result of the backward walk: the prior seen set plus the
cells of the backward closures of the queued nodes. -/
theorem part2Walk_mem (tbl : DistTable) :
    ∀ (fuel : Nat) (seen : List (Nat × Nat)) (queue : List Node)
      (out : List (Nat × Nat)), part2Walk tbl fuel seen queue = some out →
      ∀ c, c ∈ out ↔ c ∈ seen ∨ queueClosure tbl queue c := by
  intro fuel
  induction fuel with
  | zero =>
    intro seen queue out h c
    cases queue with
    | nil =>
      rw [part2Walk_nil, Option.some_inj] at h
      subst h
      constructor
      · exact fun hc => Or.inl hc
      · rintro (hc | ⟨n, u, hn, -, -⟩)
        · exact hc
        · exact absurd hn (List.not_mem_nil n)
    | cons n rest => exact absurd h (by simp [part2Walk])
  | succ f ih =>
    intro seen queue out h c
    cases queue with
    | nil =>
      rw [part2Walk_nil, Option.some_inj] at h
      subst h
      constructor
      · exact fun hc => Or.inl hc
      · rintro (hc | ⟨n, u, hn, -, -⟩)
        · exact hc
        · exact absurd hn (List.not_mem_nil n)
    | cons node rest =>
      rw [part2Walk_cons] at h
      cases hget : mget tbl node with
      | none =>
        rw [hget] at h
        exact absurd h (by simp)
      | some pr =>
        obtain ⟨d, preds⟩ := pr
        rw [hget] at h
        dsimp only at h
        have hmem := ih (posInsert (node.x, node.y) seen) (rest ++ preds) out h c
        rw [hmem, mem_posInsert, queueClosure_append, queueClosure_cons]
        have hnode : (∃ u, PredReach tbl node u ∧ c = (u.x, u.y)) ↔
            c = (node.x, node.y) ∨ queueClosure tbl preds c := by
          constructor
          · rintro ⟨u, hr, hc⟩
            rcases (predreach_decomp tbl node d preds hget u).mp hr with he | ⟨p, hp, hpr⟩
            · subst he
              exact Or.inl hc
            · exact Or.inr ⟨p, u, hp, hpr, hc⟩
          · rintro (hc | ⟨p, u, hp, hpr, hc⟩)
            · exact ⟨node, PredReach.refl, hc⟩
            · exact ⟨u, (predreach_decomp tbl node d preds hget u).mpr
                (Or.inr ⟨p, hp, hpr⟩), hc⟩
        rw [hnode]
        tauto

/-! ### Termination of the backward walk -/

/-- Sum of predecessor-list lengths at the innermost level. -/
def cellPreds (cell : NatMap (Nat × List Node)) : Nat :=
  (cell.map fun e => e.2.2.length).sum

def rowPreds (row : NatMap (NatMap (Nat × List Node))) : Nat :=
  (row.map fun c => cellPreds c.2).sum

/-- Total predecessor-list length of a table: a uniform bound on any one set. -/
def predsTotal (tbl : DistTable) : Nat :=
  (tbl.map fun r => rowPreds r.2).sum

theorem nget_le_sum {β : Type} (F : β → Nat) :
    ∀ (m : NatMap β) (a : Nat) (v : β), nget m a = some v →
      F v ≤ (m.map fun e => F e.2).sum := by
  intro m
  induction m with
  | nil =>
    intro a v h
    simp [nget] at h
  | cons e rest ih =>
    intro a v h
    obtain ⟨k, w⟩ := e
    simp only [nget] at h
    by_cases hk : k = a
    · rw [if_pos hk, Option.some_inj] at h
      subst h
      simp only [List.map_cons, List.sum_cons]
      omega
    · rw [if_neg hk] at h
      have := ih a v h
      simp only [List.map_cons, List.sum_cons]
      omega

theorem mget_preds_le (tbl : DistTable) (n : Node) (d : Nat) (ps : List Node)
    (h : mget tbl n = some (d, ps)) : ps.length ≤ predsTotal tbl := by
  unfold mget at h
  cases h1 : nget tbl n.x with
  | none =>
    rw [h1] at h
    simp at h
  | some row =>
    rw [h1, Option.some_bind] at h
    cases h2 : nget row n.y with
    | none =>
      rw [h2] at h
      simp at h
    | some cell =>
      rw [h2, Option.some_bind] at h
      have hb : (fun v : Nat × List Node => v.2.length) (d, ps) ≤ cellPreds cell :=
        nget_le_sum (fun v => v.2.length) cell n.direction.idx (d, ps) h
      have hc : cellPreds cell ≤ rowPreds row :=
        nget_le_sum cellPreds row n.y cell h2
      have hd : rowPreds row ≤ predsTotal tbl :=
        nget_le_sum rowPreds tbl n.x row h1
      simp only at hb
      omega

/-- Exponential measure on the queue, decreasing at each pop when every
predecessor has strictly smaller recorded distance bounded by B per set. -/
def p2measure (tbl : DistTable) (B : Nat) (queue : List Node) : Nat :=
  (queue.map fun n => (B + 1) ^ ((mget tbl n).getD (0, [])).1).sum

theorem p2measure_le_of_dist_lt (tbl : DistTable) (B : Nat) (ps : List Node)
    (d : Nat)
    (hps : ∀ p ∈ ps, ∃ dp psp, mget tbl p = some (dp, psp) ∧ dp < d)
    (hlen : ps.length ≤ B) : p2measure tbl B ps < (B + 1) ^ d := by
  cases d with
  | zero =>
    have hnil : ps = [] := by
      cases ps with
      | nil => rfl
      | cons p rest =>
        obtain ⟨dp, psp, -, hlt⟩ := hps p (List.mem_cons_self _ _)
        omega
    subst hnil
    simp [p2measure]
  | succ k =>
    have hone : 1 ≤ (B + 1) ^ k := Nat.one_le_pow k (B + 1) (by omega)
    have hterm : ∀ x ∈ ps.map fun n => (B + 1) ^ ((mget tbl n).getD (0, [])).1,
        x ≤ (B + 1) ^ k := by
      intro x hx
      obtain ⟨p, hp, hpe⟩ := List.mem_map.mp hx
      obtain ⟨dp, psp, hget, hlt⟩ := hps p hp
      rw [← hpe, hget]
      simp only [Option.getD_some]
      exact Nat.pow_le_pow_right (by omega) (by omega)
    have hsum := List.sum_le_card_nsmul _ _ hterm
    rw [List.length_map, smul_eq_mul] at hsum
    have hmul : ps.length * (B + 1) ^ k ≤ B * (B + 1) ^ k :=
      Nat.mul_le_mul_right _ hlen
    have hpow : (B + 1) ^ (k + 1) = B * (B + 1) ^ k + (B + 1) ^ k := by
      rw [pow_succ]
      ring
    unfold p2measure
    omega

theorem p2measure_append (tbl : DistTable) (B : Nat) (q1 q2 : List Node) :
    p2measure tbl B (q1 ++ q2) = p2measure tbl B q1 + p2measure tbl B q2 := by
  unfold p2measure
  rw [List.map_append, List.sum_append]

/-- The backward walk succeeds once the fuel exceeds the exponential measure. -/
theorem part2Walk_terminates_aux (tbl : DistTable) (B : Nat)
    (hB : ∀ n d ps, mget tbl n = some (d, ps) → ps.length ≤ B)
    (hdec : ∀ n d ps, mget tbl n = some (d, ps) → ∀ p ∈ ps,
      ∃ dp psp, mget tbl p = some (dp, psp) ∧ dp < d) :
    ∀ (fuel : Nat) (seen : List (Nat × Nat)) (queue : List Node),
      (∀ n ∈ queue, mget tbl n ≠ none) → p2measure tbl B queue < fuel →
      ∃ out, part2Walk tbl fuel seen queue = some out := by
  intro fuel
  induction fuel with
  | zero =>
    intro seen queue hq hm
    omega
  | succ f ih =>
    intro seen queue hq hm
    cases queue with
    | nil => exact ⟨seen, part2Walk_nil tbl (f + 1) seen⟩
    | cons node rest =>
      have hnode := hq node (List.mem_cons_self _ _)
      cases hget : mget tbl node with
      | none => exact absurd hget hnode
      | some pr =>
        obtain ⟨d, preds⟩ := pr
        rw [part2Walk_cons, hget]
        dsimp only
        apply ih
        · intro n hn
          rcases List.mem_append.mp hn with h | h
          · exact hq n (List.mem_cons_of_mem _ h)
          · obtain ⟨dp, psp, hp, -⟩ := hdec node d preds hget n h
            rw [hp]
            exact fun hc => Option.noConfusion hc
        · have hstep : p2measure tbl B preds < (B + 1) ^ d :=
            p2measure_le_of_dist_lt tbl B preds d (hdec node d preds hget)
              (hB node d preds hget)
          have hhead : p2measure tbl B (node :: rest) =
              (B + 1) ^ d + p2measure tbl B rest := by
            unfold p2measure
            simp only [List.map_cons, List.sum_cons, hget, Option.getD_some]
          rw [p2measure_append]
          omega

/-- A successful dijkstra run implies the source is a key of the graph. -/
theorem dijkstra_some_key (g : Graph) (s : Node) (tbl : DistTable)
    (h : dijkstra g s = some tbl) : mget g.adj_list s ≠ none := by
  intro hn
  rw [dijkstra_none g s hn] at h
  exact Option.noConfusion h

/-- A successful dijkstra run satisfies the Final postcondition. -/
theorem dijkstra_some_final (g : Graph) (wf : GraphWF g) (s : Node)
    (tbl : DistTable) (h : dijkstra g s = some tbl) : Final g s tbl := by
  obtain ⟨tbl', events, -, hfin, -, heq⟩ :=
    dijkstra_spec g wf s (dijkstra_some_key g s tbl h)
  rw [h, Option.some_inj] at heq
  rw [heq]
  exact hfin

/-- Every predecessor recorded by a finished run has strictly smaller distance. -/
theorem final_preds_dist_lt (g : Graph) (wf : GraphWF g) (s : Node)
    (tbl : DistTable) (hfin : Final g s tbl) :
    ∀ v dv psv, mget tbl v = some (dv, psv) → ∀ p ∈ psv,
      ∃ dp psp, mget tbl p = some (dp, psp) ∧ dp < dv := by
  intro v dv psv hv p hp
  obtain ⟨w, dp, psp, he, hgp, heq⟩ := hfin.psEq v dv psv hv p hp
  have hw : 1 ≤ w := wf.posw p v w he
  exact ⟨dp, psp, hgp, by omega⟩

/-- The backward walk of part2 terminates on any table produced by dijkstra,
from any queue of recorded states: some fuel makes it return. -/
theorem part2Walk_terminates (g : Graph) (wf : GraphWF g) (s : Node)
    (tbl : DistTable) (h : dijkstra g s = some tbl)
    (seen : List (Nat × Nat)) (queue : List Node)
    (hq : ∀ n ∈ queue, mget tbl n ≠ none) :
    ∃ fuel out, part2Walk tbl fuel seen queue = some out := by
  have hfin := dijkstra_some_final g wf s tbl h
  have hdec := final_preds_dist_lt g wf s tbl hfin
  refine ⟨p2measure tbl (predsTotal tbl) queue + 1, ?_⟩
  exact part2Walk_terminates_aux tbl (predsTotal tbl)
    (fun n d ps hg => mget_preds_le tbl n d ps hg) hdec
    (p2measure tbl (predsTotal tbl) queue + 1) seen queue hq (by omega)

/-- A state is in the backward closure of a target t (with finite recorded
distance) iff it lies on a walk from the source to t of weight exactly the
recorded distance of t. -/
theorem predreach_iff_min_walk (g : Graph) (wf : GraphWF g) (s : Node)
    (tbl : DistTable) (hfin : Final g s tbl) (t : Node) (dt : Nat)
    (pst : List Node) (ht : mget tbl t = some (dt, pst)) (hdt : dt < usizeMAX)
    (u : Node) :
    PredReach tbl t u ↔
      ∃ steps, IsWalk g s t steps ∧ walkWeight steps = dt ∧
        u ∈ walkNodes s steps := by
  constructor
  · intro h
    obtain ⟨du, psu, suffix, hgu, hwsuf, hsum⟩ :=
      predreach_suffix g s tbl hfin t dt pst ht u h
    have hdu : du < usizeMAX := by omega
    rcases hfin.ub u du psu hgu with hmax | ⟨pre, hwpre, hwt⟩
    · omega
    · refine ⟨pre ++ suffix, hwpre.append hwsuf, ?_, ?_⟩
      · rw [walkWeight_append, hwt]
        omega
      · have hm := walkEnd_mem_walkNodes s pre
        rw [hwpre.2] at hm
        simp only [walkNodes, List.map_append, List.mem_cons, List.mem_append] at hm ⊢
        tauto
  · rintro ⟨steps, hw, hwt, hu⟩
    exact min_walk_predreach g wf s tbl hfin steps t dt pst hw ht hwt u hu

/-- min_by_key returns a member whose key is minimal. -/
theorem minByKeyFirst_spec {α : Type} (f : α → Nat) :
    ∀ (l : List α) (x : α), minByKeyFirst f l = some x →
      x ∈ l ∧ ∀ y ∈ l, f x ≤ f y := by
  have hfold : ∀ (xs : List α) (a : α),
      (xs.foldl (fun best y => if f y < f best then y else best) a = a ∨
        xs.foldl (fun best y => if f y < f best then y else best) a ∈ xs) ∧
      f (xs.foldl (fun best y => if f y < f best then y else best) a) ≤ f a ∧
      ∀ y ∈ xs, f (xs.foldl (fun best y => if f y < f best then y else best) a) ≤ f y := by
    intro xs
    induction xs with
    | nil =>
      intro a
      refine ⟨Or.inl rfl, le_refl _, ?_⟩
      intro y hy
      exact absurd hy (List.not_mem_nil y)
    | cons z zs ih =>
      intro a
      simp only [List.foldl_cons]
      by_cases hz : f z < f a
      · rw [if_pos hz]
        obtain ⟨hmem, hle, hall⟩ := ih z
        refine ⟨?_, by omega, ?_⟩
        · rcases hmem with he | hm
          · exact Or.inr (by rw [he]; exact List.mem_cons_self _ _)
          · exact Or.inr (List.mem_cons_of_mem _ hm)
        · intro y hy
          rcases List.mem_cons.mp hy with he | hm
          · rw [he]
            exact hle
          · exact hall y hm
      · rw [if_neg hz]
        obtain ⟨hmem, hle, hall⟩ := ih a
        refine ⟨?_, hle, ?_⟩
        · rcases hmem with he | hm
          · exact Or.inl he
          · exact Or.inr (List.mem_cons_of_mem _ hm)
        · intro y hy
          rcases List.mem_cons.mp hy with he | hm
          · rw [he]
            omega
          · exact hall y hm
  intro l x h
  cases l with
  | nil => exact absurd h (by simp [minByKeyFirst])
  | cons a xs =>
    simp only [minByKeyFirst, Option.some_inj] at h
    obtain ⟨hmem, hle, hall⟩ := hfold xs a
    subst h
    refine ⟨?_, ?_⟩
    · rcases hmem with he | hm
      · rw [he]
        exact List.mem_cons_self _ _
      · exact List.mem_cons_of_mem _ hm
    · intro y hy
      rcases List.mem_cons.mp hy with he | hm
      · rw [he]
        exact hle
      · exact hall y hm

/-! ### day18.rs: the memory-space map, its cache and Map::corrupt -/

namespace Day18

/-- type Pos = (usize, usize). -/
abbrev Pos := Nat × Nat

/-- HashMap<Pos, (usize, Option<Pos>)> of best_path, as an association list. -/
abbrev PMap := List (Pos × (Nat × Option Pos))

def pget : PMap → Pos → Option (Nat × Option Pos)
  | [], _ => none
  | (k, v) :: rest, p => if k = p then some v else pget rest p

def pset (p : Pos) (v : Nat × Option Pos) : PMap → PMap
  | [] => [(p, v)]
  | (k, w) :: rest => if k = p then (p, v) :: rest else (k, w) :: pset p v rest

/-- Lexicographic order of Pos, the derived Ord of (usize, usize). -/
def posLtB (p q : Pos) : Bool :=
  Nat.blt p.1 q.1 || (p.1 == q.1 && Nat.blt p.2 q.2)

/-- HeapElem Ord of day18.rs: reversed distance, then node order. -/
def pheLtB (a b : Pos × Nat) : Bool :=
  Nat.blt b.2 a.2 || (b.2 == a.2 && posLtB a.1 b.1)

/-- BinaryHeap::push, on the sorted-list model of the heap (maximum first). -/
def pHeapPush (e : Pos × Nat) : List (Pos × Nat) → List (Pos × Nat)
  | [] => [e]
  | x :: xs => if pheLtB x e then e :: x :: xs else x :: pHeapPush e xs

/-- struct Map of day18.rs. -/
structure Map where
  rows : Nat
  cols : Nat
  corrupted : List Pos
  best_path_nodes : Option (List Pos)

/-- Map::new: the initial cache holds the top row and the bottom row of cells,
exactly as the source writes them ((0, i) for i < rows, (rows-1, j) for
j < cols). -/
def Map.new (rows cols : Nat) : Map :=
  let b1 := (List.range rows).foldl (fun s i => posInsert (0, i) s) []
  let b2 := (List.range cols).foldl (fun s j => posInsert (rows - 1, j) s) b1
  ⟨rows, cols, [], some b2⟩

/-- Map::neighbors: the in-bounds orthogonal neighbors that are not corrupted
(usize subtraction, for the rows ≥ 1, cols ≥ 1 maps the program builds). -/
def Map.neighbors (m : Map) (pos : Pos) : List Pos :=
  let opts :=
    (if 0 < pos.1 then [(pos.1 - 1, pos.2)] else []) ++
    (if pos.1 < m.rows - 1 then [(pos.1 + 1, pos.2)] else []) ++
    (if 0 < pos.2 then [(pos.1, pos.2 - 1)] else []) ++
    (if pos.2 < m.cols - 1 then [(pos.1, pos.2 + 1)] else [])
  opts.filter fun x => ¬ x ∈ m.corrupted

/-- The neighbor loop of best_path: relax each neighbor of `node` popped at
`distance`; none models the .unwrap() on a neighbor missing from the table. -/
def bpRelaxList (node : Pos) (distance : Nat) :
    List Pos → PMap → List (Pos × Nat) → Option (PMap × List (Pos × Nat))
  | [], result, heap => some (result, heap)
  | n :: rest, result, heap =>
    match pget result n with
    | none => none
    | some (cur, _) =>
      if distance + 1 < cur then
        bpRelaxList node distance rest (pset n (distance + 1, some node) result)
          (pHeapPush (n, distance + 1) heap)
      else bpRelaxList node distance rest result heap

/-- The main loop of best_path: break on popping the target, skip a stale
entry (committed < popped), otherwise relax the neighbors. Fuel-based; none
models the panic of result[&node] on a missing key (or fuel exhaustion). -/
def bpLoop (m : Map) (target : Pos) :
    Nat → PMap → List (Pos × Nat) → Option PMap
  | _, result, [] => some result
  | 0, _, _ :: _ => none
  | fuel + 1, result, (node, distance) :: heap =>
    if node = target then some result
    else
      match pget result node with
      | none => none
      | some (d, _) =>
        if d < distance then bpLoop m target fuel result heap
        else
          match bpRelaxList node distance (m.neighbors node) result heap with
          | none => none
          | some (result', heap') => bpLoop m target fuel result' heap'

/-- The backward single-predecessor walk at the end of best_path. -/
def bpBackWalk (result : PMap) : Nat → Pos → List Pos → Option (List Pos)
  | 0, _, _ => none
  | fuel + 1, cur, acc =>
    match pget result cur with
    | none => none
    | some (_, none) => some acc
    | some (_, some n) => bpBackWalk result fuel n (posInsert n acc)

/-- Internal fuel, far above the length of any possible run (its sufficiency
is not needed by the theorems below, which never enter best_path). -/
def bpFuel (m : Map) : Nat :=
  (m.rows * m.cols + 1) * (usizeMAX + 1)

/-- Map::best_path. The outer Option models panic or fuel exhaustion, the
inner one is the source's Option<HashSet<Pos>> (None = target unreachable). -/
def best_path (m : Map) (source target : Pos) : Option (Option (List Pos)) :=
  let init : PMap :=
    ((prodList m.rows m.cols).filter fun pos => ¬ pos ∈ m.corrupted).map
      fun pos => (pos, (if pos = source then 0 else usizeMAX, (none : Option Pos)))
  match bpLoop m target (bpFuel m) init [(source, 0)] with
  | none => none
  | some result =>
    match pget result target with
    | none => none
    | some (distance, _) =>
      if distance = usizeMAX then some none
      else (bpBackWalk result (bpFuel m) target [target]).map fun acc => some acc

/-- Map::corrupt: insert pos into corrupted; recompute the cached
best_path_nodes via best_path only when the cache is Some and contains pos. -/
def Map.corrupt (m : Map) (pos : Pos) : Option Map :=
  let m1 : Map := { m with corrupted := posInsert pos m.corrupted }
  match m1.best_path_nodes with
  | some nodes =>
    if pos ∈ nodes then
      (best_path m1 (0, 0) (m1.rows - 1, m1.cols - 1)).map
        fun r => { m1 with best_path_nodes := r }
    else some m1
  | none => some m1

end Day18

/-! ### Concrete instances: the example mazes of the tests and small graphs -/

/-- TEST_INPUT_1 of day16.rs (15 rows by 15 columns). -/
def TEST1 : String := "###############\n#.......#....E#\n#.#.###.#.###.#\n#.....#.#...#.#\n#.###.#####.#.#\n#.#.#.......#.#\n#.#.#####.###.#\n#...........#.#\n###.#.#####.#.#\n#...#.....#.#.#\n#.#.#.###.#.#.#\n#.....#...#.#.#\n#.###.#.#.#.#.#\n#S..#.....#...#\n###############"

/-- TEST_INPUT_2 of day16.rs (17 rows by 17 columns). -/
def TEST2 : String := "#################\n#...#...#...#..E#\n#.#.#.#.#.#.#.#.#\n#.#.#.#...#...#.#\n#.#.#.#.###.#.#.#\n#...#.#.#.....#.#\n#.#.#.#.#.#####.#\n#.#...#.#.#.....#\n#.#.#####.#.###.#\n#.#.#.......#...#\n#.#.###.#####.###\n#.#.#...#.....#.#\n#.#.#.#####.###.#\n#.#.#.........#.#\n#.#.#.#########.#\n#S#.............#\n#################"

/-- A 2 by 2 maze (start and end adjacent); square, so the transposed end
search of from_cells stays in bounds. -/
def exInput : String := "SE\n##"

def exMaze : Maze := (parseInput exInput).getD ⟨[], 0, 0, (0, 0), (0, 0)⟩

def exGraph : Graph := Graph.from_maze exMaze

def exStart : Node := ⟨0, 0, Direction.Right⟩

def exTbl : DistTable := (dijkstra exGraph exStart).getD []

def exEnd : Node := ⟨0, 1, Direction.Right⟩

/-- A three-state graph (all states at distinct cells, facing Up) with edges
s→a of weight 5, s→b of weight 1, b→a of weight 1: popping (a, 5) after a was
committed at 2 exhibits the inverted stale guard. -/
def gC4 : Graph := ⟨mset ⟨0, 0, Direction.Up⟩ [(⟨0, 1, Direction.Up⟩, 5), (⟨0, 2, Direction.Up⟩, 1)]
  (mset ⟨0, 1, Direction.Up⟩ []
  (mset ⟨0, 2, Direction.Up⟩ [(⟨0, 1, Direction.Up⟩, 1)] []))⟩

def sC4 : Node := ⟨0, 0, Direction.Up⟩

/-- The stale pop of gC4: state a popped at cost 5 when already committed at 2,
processed anyway (skipped = false). -/
def evC4 : PopEvent := ⟨⟨0, 1, Direction.Up⟩, 5, 2, false⟩

/-- A 7-row by 8-column maze with two cost-3008 routes into the end cell, one
arriving facing Up and one facing Down: the two end orientations tie. -/
def tieInput : String := "########\n#.....##\n#.###.##\n#S###E##\n#.###.##\n#.....##\n########"

def tieMaze : Maze := (parseInput tieInput).getD ⟨[], 0, 0, (0, 0), (0, 0)⟩

def tieGraph : Graph := Graph.from_maze tieMaze

def tieStart : Node := ⟨3, 1, Direction.Right⟩

def tieTbl : DistTable := (dijkstra tieGraph tieStart).getD []

def tieCands : List (Node × Nat) :=
  [(⟨3, 5, Direction.Up⟩, 3008), (⟨3, 5, Direction.Down⟩, 3008),
   (⟨3, 5, Direction.Left⟩, 4008), (⟨3, 5, Direction.Right⟩, 4008)]

/-- The cells part2's walk reports on tieInput (the Up-arrival route only). -/
def tieOut : List (Nat × Nat) :=
  [(3, 1), (4, 1), (5, 1), (5, 2), (5, 3), (5, 4), (5, 5), (4, 5), (3, 5)]

/-- The minimum-weight walk into the end cell arriving facing Down (the other
tied orientation): down the left corridor, along the bottom row, up. -/
def tieSteps : List (Node × Nat) :=
  [(⟨3, 1, Direction.Up⟩, 1000), (⟨2, 1, Direction.Up⟩, 1), (⟨1, 1, Direction.Up⟩, 1),
   (⟨1, 1, Direction.Right⟩, 1000), (⟨1, 2, Direction.Right⟩, 1), (⟨1, 3, Direction.Right⟩, 1),
   (⟨1, 4, Direction.Right⟩, 1), (⟨1, 5, Direction.Right⟩, 1),
   (⟨1, 5, Direction.Down⟩, 1000), (⟨2, 5, Direction.Down⟩, 1), (⟨3, 5, Direction.Down⟩, 1)]

/-- The 2 by 2 day18 map; its initial cache is the whole grid. -/
def m18 : Day18.Map := Day18.Map.new 2 2

/-! ### The claims -/

/-- C5 (corrected): on a graph with zero states, or from a source state absent
from the graph, dijkstra does not complete with a result mapping: the source's
first pop indexes the record table at a missing key (modelled none = panic). -/
theorem c5_missing_source_amended (g : Graph) (s : Node)
    (hs : mget g.adj_list s = none) : dijkstra g s = none :=
  dijkstra_none g s hs

theorem c5_missing_source_amended_witness :
    dijkstra (⟨[]⟩ : Graph) ⟨0, 0, Direction.Up⟩ = none :=
  c5_missing_source_amended ⟨[]⟩ ⟨0, 0, Direction.Up⟩ rfl

/-- C5 counterexample to the original claim: on the empty graph the solver
yields no result mapping at all (the model's none stands for the panic of
result[&node] on the missing source), rather than an empty or
source-at-distance-0 mapping. -/
theorem c5_missing_source_counterexample :
    dijkstra (⟨[]⟩ : Graph) ⟨0, 1, Direction.Up⟩ = none ∧
      ∀ tbl : DistTable, ¬ dijkstra (⟨[]⟩ : Graph) ⟨0, 1, Direction.Up⟩ = some tbl :=
  ⟨rfl, fun _ h => Option.noConfusion h⟩

/-- C7: part1 returns 7036 on the 15 by 15 example and 11048 on the 17 by 17
example. -/
theorem c7_part1_examples : part1 TEST1 = some 7036 ∧ part1 TEST2 = some 11048 :=
  ⟨rfl, rfl⟩

/-- C8: part2 returns 45 on the 15 by 15 example and 64 on the 17 by 17
example. -/
theorem c8_part2_examples :
    part2 100000 TEST1 = some 45 ∧ part2 100000 TEST2 = some 64 :=
  ⟨rfl, rfl⟩

/-- C10: Map::corrupt always adds the position to the corrupted set; it leaves
a cached Some(s) untouched when the position is outside s, and a None cache
stays None (best_path is only consulted when the position is in the cache). -/
theorem c10_corrupt_frame (m : Day18.Map) (p : Day18.Pos) :
    (∀ s, m.best_path_nodes = some s → ¬ p ∈ s →
      ∃ m', Day18.Map.corrupt m p = some m' ∧ m'.best_path_nodes = some s ∧
        m'.corrupted = posInsert p m.corrupted ∧ m'.rows = m.rows ∧
        m'.cols = m.cols) ∧
    (m.best_path_nodes = none →
      ∃ m', Day18.Map.corrupt m p = some m' ∧ m'.best_path_nodes = none ∧
        m'.corrupted = posInsert p m.corrupted) ∧
    (∀ m', Day18.Map.corrupt m p = some m' → p ∈ m'.corrupted) := by
  refine ⟨?_, ?_, ?_⟩
  · intro s hs hnp
    unfold Day18.Map.corrupt
    dsimp only
    rw [hs]
    dsimp only
    rw [if_neg hnp]
    exact ⟨_, rfl, rfl, rfl, rfl, rfl⟩
  · intro hn
    unfold Day18.Map.corrupt
    dsimp only
    rw [hn]
    dsimp only
    exact ⟨_, rfl, rfl, rfl⟩
  · intro m' hm'
    unfold Day18.Map.corrupt at hm'
    dsimp only at hm'
    cases hbn : m.best_path_nodes with
    | none =>
      rw [hbn] at hm'
      dsimp only at hm'
      rw [Option.some_inj] at hm'
      rw [← hm']
      exact (mem_posInsert p p m.corrupted).mpr (Or.inl rfl)
    | some nodes =>
      rw [hbn] at hm'
      dsimp only at hm'
      by_cases hp : p ∈ nodes
      · rw [if_pos hp, Option.map_eq_some'] at hm'
        obtain ⟨r, -, hm'⟩ := hm'
        rw [← hm']
        exact (mem_posInsert p p m.corrupted).mpr (Or.inl rfl)
      · rw [if_neg hp, Option.some_inj] at hm'
        rw [← hm']
        exact (mem_posInsert p p m.corrupted).mpr (Or.inl rfl)

theorem c10_corrupt_frame_witness :
    ∃ m', Day18.Map.corrupt m18 (7, 7) = some m' ∧
      m'.best_path_nodes = some [(1, 1), (1, 0), (0, 1), (0, 0)] ∧
      m'.corrupted = posInsert (7, 7) m18.corrupted ∧
      m'.rows = m18.rows ∧ m'.cols = m18.cols :=
  (c10_corrupt_frame m18 (7, 7)).1 [(1, 1), (1, 0), (0, 1), (0, 0)] rfl (by decide)

/-- C1: on any well-formed graph, a completed dijkstra run records, for every
state, the true minimum walk weight from the source (attained by some walk and
a lower bound on all walks; stated for states with at least one walk of weight
below the usize::MAX sentinel), while a state with no walk from the source
keeps distance usize::MAX and an empty predecessor set. -/
theorem c1_dijkstra_distances (g : Graph) (wf : GraphWF g) (s : Node)
    (tbl : DistTable) (hrun : dijkstra g s = some tbl) (v : Node)
    (d : Nat) (ps : List Node) (hv : mget tbl v = some (d, ps)) :
    (∀ steps0, IsWalk g s v steps0 → walkWeight steps0 < usizeMAX →
      (∃ steps, IsWalk g s v steps ∧ walkWeight steps = d) ∧
        ∀ steps, IsWalk g s v steps → d ≤ walkWeight steps) ∧
    (¬Reaches g s v → d = usizeMAX ∧ ps = []) := by
  have hfin := dijkstra_some_final g wf s tbl hrun
  constructor
  · intro steps0 hw0 hsmall
    exact final_dist_min g wf s tbl hfin v steps0 hw0 hsmall d ps hv
  · intro hnr
    exact final_unreachable g wf s tbl hfin v hnr d ps hv

theorem c1_dijkstra_distances_witness :
    (∃ steps, IsWalk exGraph exStart exEnd steps ∧ walkWeight steps = 1) ∧
      ∀ steps, IsWalk exGraph exStart exEnd steps → 1 ≤ walkWeight steps :=
  (c1_dijkstra_distances exGraph (from_maze_wf exMaze) exStart exTbl rfl
    exEnd 1 [⟨0, 0, Direction.Right⟩] rfl).1 [(exEnd, 1)]
    ⟨by decide, by decide⟩ (by decide)

/-- C2: after a completed dijkstra run, the predecessor set of a state v holds
exactly the in-neighbors p with an edge (p, v, w) whose recorded distance
satisfies record p + w = record v: membership is sound and complete. -/
theorem c2_predecessor_sets (g : Graph) (wf : GraphWF g) (s : Node)
    (tbl : DistTable) (hrun : dijkstra g s = some tbl) (v : Node) (d : Nat)
    (ps : List Node) (hv : mget tbl v = some (d, ps)) (q : Node) :
    q ∈ ps ↔ ∃ w dq psq, EdgeOf g q v w ∧ mget tbl q = some (dq, psq) ∧
      dq + w = d :=
  final_preds_iff g wf s tbl (dijkstra_some_final g wf s tbl hrun) v d ps hv q

theorem c2_predecessor_sets_witness :
    ∃ w dq psq, EdgeOf exGraph ⟨0, 0, Direction.Right⟩ exEnd w ∧
      mget exTbl ⟨0, 0, Direction.Right⟩ = some (dq, psq) ∧ dq + w = 1 :=
  (c2_predecessor_sets exGraph (from_maze_wf exMaze) exStart exTbl rfl
    exEnd 1 [⟨0, 0, Direction.Right⟩] rfl ⟨0, 0, Direction.Right⟩).mp (by decide)

/-- C4 (corrected): the code's stale test result[node].0 > cost never fires:
on every pop the committed distance is at most the popped cost, so each
extracted entry — stale ones included — is processed (skipped = false), not
discarded; reprocessing a stale entry relaxes no neighbor further. -/
theorem c4_stale_guard_amended (g : Graph) (wf : GraphWF g) (s : Node)
    (hs : mget g.adj_list s ≠ none) :
    ∃ tbl events, dijkstraFull g s = some (tbl, events) ∧
      ∀ e ∈ events, e.skipped = false ∧ e.committed ≤ e.cost := by
  obtain ⟨tbl, events, hfull, -, hev, -⟩ := dijkstra_spec g wf s hs
  exact ⟨tbl, events, hfull, hev⟩

theorem c4_stale_guard_amended_witness :
    ∃ tbl events, dijkstraFull exGraph exStart = some (tbl, events) ∧
      ∀ e ∈ events, e.skipped = false ∧ e.committed ≤ e.cost :=
  c4_stale_guard_amended exGraph (from_maze_wf exMaze) exStart (by decide)

/-- C4 counterexample to the original claim: on gC4 the entry (a, 5) is
extracted while a's committed distance is already 2 < 5, yet the trace records
it as processed (skipped = false): the stale entry is not discarded. -/
theorem c4_stale_guard_counterexample :
    evC4 ∈ ((dijkstraFull gC4 sC4).getD ([], [])).2 ∧
      evC4.committed < evC4.cost ∧ evC4.skipped = false :=
  ⟨by decide, by decide, rfl⟩

/-- C6: in the graph of Graph::from_maze, a state at a non-wall in-bounds cell
has the forward edge of weight 1 (same facing) exactly onto the in-bounds
non-wall next cell in its facing, and unconditionally the two weight-1000
turn edges to the perpendicular facings at the same cell. -/
theorem c6_from_maze_edges (maze : Maze) (x y : Nat) (d : Direction)
    (hx : x < maze.rows) (hy : y < maze.cols)
    (hc : maze.cellAt x y ≠ CellType.Wall) :
    (∀ i j, EdgeOf (Graph.from_maze maze) ⟨x, y, d⟩ ⟨i, j, d⟩ 1 ↔
      (maze.next_pos (x, y) d = some (i, j) ∧ maze.cellAt i j ≠ CellType.Wall)) ∧
    (∀ f, f ∈ turnsOf d → EdgeOf (Graph.from_maze maze) ⟨x, y, d⟩ ⟨x, y, f⟩ 1000) := by
  have hadj : mget (Graph.from_maze maze).adj_list ⟨x, y, d⟩ =
      some (cellEdges maze x y d) := mget_from_maze_valid maze ⟨x, y, d⟩ hx hy hc
  have hedge : ∀ v w, EdgeOf (Graph.from_maze maze) ⟨x, y, d⟩ v w ↔
      (v, w) ∈ cellEdges maze x y d := by
    intro v w
    unfold EdgeOf adjOf
    rw [hadj]
    exact Iff.rfl
  constructor
  · intro i j
    rw [hedge, mem_cellEdges]
    constructor
    · rintro (⟨-, i', j', hnp, hcw, he⟩ | ⟨hw, -⟩)
      · obtain ⟨h1, h2, -⟩ := Node.mk.injEq .. ▸ he
        exact ⟨by rw [h1, h2]; exact hnp, by rw [h1, h2]; exact hcw⟩
      · exact absurd hw (by decide)
    · rintro ⟨hnp, hcw⟩
      exact Or.inl ⟨rfl, i, j, hnp, hcw, rfl⟩
  · intro f hf
    rw [hedge, mem_cellEdges]
    exact Or.inr ⟨rfl, rfl, rfl, hf⟩

theorem c6_from_maze_edges_witness :
    EdgeOf exGraph ⟨0, 0, Direction.Right⟩ ⟨0, 1, Direction.Right⟩ 1 ∧
      EdgeOf exGraph ⟨0, 0, Direction.Right⟩ ⟨0, 0, Direction.Up⟩ 1000 :=
  ⟨((c6_from_maze_edges exMaze 0 0 Direction.Right (by decide) (by decide)
      (by decide)).1 0 1).mpr ⟨by decide, by decide⟩,
   (c6_from_maze_edges exMaze 0 0 Direction.Right (by decide) (by decide)
      (by decide)).2 Direction.Up (by decide)⟩

/-- C9: on any table a completed dijkstra run produces, every predecessor of a
state has strictly smaller recorded distance (weights are positive), so the
backward reconstruction walk of part2 — queueing predecessors with no visited
check — exhausts its queue: some finite fuel makes it return. -/
theorem c9_backwalk_terminates (g : Graph) (wf : GraphWF g) (s : Node)
    (tbl : DistTable) (hrun : dijkstra g s = some tbl)
    (seen : List (Nat × Nat)) (queue : List Node)
    (hq : ∀ n ∈ queue, mget tbl n ≠ none) :
    (∀ v dv psv, mget tbl v = some (dv, psv) → ∀ p ∈ psv,
      ∃ dp psp, mget tbl p = some (dp, psp) ∧ dp < dv) ∧
    ∃ fuel out, part2Walk tbl fuel seen queue = some out :=
  ⟨final_preds_dist_lt g wf s tbl (dijkstra_some_final g wf s tbl hrun),
   part2Walk_terminates g wf s tbl hrun seen queue hq⟩

theorem c9_backwalk_terminates_witness :
    (∀ v dv psv, mget exTbl v = some (dv, psv) → ∀ p ∈ psv,
      ∃ dp psp, mget exTbl p = some (dp, psp) ∧ dp < dv) ∧
    ∃ fuel out, part2Walk exTbl fuel [] [exEnd] = some out :=
  c9_backwalk_terminates exGraph (from_maze_wf exMaze) exStart exTbl rfl []
    [exEnd] (by decide)

/-- C3 (corrected): given a solved table and candidate targets with their
recorded distances, min_by_key selects a single target — one minimal
candidate, not the whole minimizing subset — and the backward walk from it
collects exactly the cells (not states) of the states lying on some
minimum-weight walk from the source to that one target. -/
theorem c3_reconstruction_amended (g : Graph) (wf : GraphWF g) (s : Node)
    (tbl : DistTable) (hrun : dijkstra g s = some tbl)
    (cands : List (Node × Nat))
    (hc : ∀ nc ∈ cands, ∃ ps, mget tbl nc.1 = some (nc.2, ps))
    (t : Node) (dt : Nat)
    (hmin : minByKeyFirst (fun p => p.2) cands = some (t, dt))
    (hdt : dt < usizeMAX) (fuel : Nat) (out : List (Nat × Nat))
    (hw : part2Walk tbl fuel [] [t] = some out) :
    ((t, dt) ∈ cands ∧ ∀ nc ∈ cands, dt ≤ nc.2) ∧
    ∀ c, c ∈ out ↔ ∃ u steps, IsWalk g s t steps ∧ walkWeight steps = dt ∧
      u ∈ walkNodes s steps ∧ c = (u.x, u.y) := by
  have hfin := dijkstra_some_final g wf s tbl hrun
  obtain ⟨hmem, hle⟩ := minByKeyFirst_spec (fun p => p.2) cands (t, dt) hmin
  obtain ⟨pst, ht⟩ := hc (t, dt) hmem
  refine ⟨⟨hmem, hle⟩, ?_⟩
  intro c
  rw [part2Walk_mem tbl fuel [] [t] out hw c]
  simp only [queueClosure]
  constructor
  · rintro (hc0 | ⟨n, u, hn, hr, hcu⟩)
    · exact absurd hc0 (List.not_mem_nil c)
    · rcases List.mem_cons.mp hn with he | h
      · subst he
        obtain ⟨steps, hwk, hwt, hu⟩ :=
          (predreach_iff_min_walk g wf s tbl hfin n dt pst ht hdt u).mp hr
        exact ⟨u, steps, hwk, hwt, hu, hcu⟩
      · exact absurd h (List.not_mem_nil n)
  · rintro ⟨u, steps, hwk, hwt, hu, hcu⟩
    refine Or.inr ⟨t, u, List.mem_cons_self _ _, ?_, hcu⟩
    exact (predreach_iff_min_walk g wf s tbl hfin t dt pst ht hdt u).mpr
      ⟨steps, hwk, hwt, hu⟩

def exCands : List (Node × Nat) :=
  [(⟨0, 1, Direction.Up⟩, 1001), (⟨0, 1, Direction.Down⟩, 1001),
   (⟨0, 1, Direction.Left⟩, 2001), (⟨0, 1, Direction.Right⟩, 1)]

theorem c3_reconstruction_amended_witness :
    ((exEnd, 1) ∈ exCands ∧ ∀ nc ∈ exCands, 1 ≤ nc.2) ∧
    ∀ c, c ∈ [((0 : Nat), (0 : Nat)), (0, 1)] ↔
      ∃ u steps, IsWalk exGraph exStart exEnd steps ∧ walkWeight steps = 1 ∧
        u ∈ walkNodes exStart steps ∧ c = (u.x, u.y) := by
  refine c3_reconstruction_amended exGraph (from_maze_wf exMaze) exStart exTbl
    rfl exCands ?_ exEnd 1 rfl (by decide) 100 [(0, 0), (0, 1)] rfl
  intro nc hnc
  rcases List.mem_cons.mp hnc with he | hnc
  · exact ⟨[⟨0, 1, Direction.Right⟩], by rw [he]; rfl⟩
  rcases List.mem_cons.mp hnc with he | hnc
  · exact ⟨[⟨0, 1, Direction.Right⟩], by rw [he]; rfl⟩
  rcases List.mem_cons.mp hnc with he | hnc
  · exact ⟨[⟨0, 1, Direction.Up⟩, ⟨0, 1, Direction.Down⟩], by rw [he]; rfl⟩
  rcases List.mem_cons.mp hnc with he | hnc
  · exact ⟨[⟨0, 0, Direction.Right⟩], by rw [he]; rfl⟩
  · exact absurd hnc (List.not_mem_nil nc)

/-- C3 counterexample to the original claim: on tieInput the end orientations
Up and Down both achieve the minimal candidate distance 3008, yet min_by_key
selects the single first one (Up) and the result misses the cell (1, 1) of a
state on a minimum-weight walk into the tied Down orientation; part2 reports
9 cells, not the states of all minimal paths to every minimal target. -/
theorem c3_single_target_counterexample :
    ((endCandidates tieMaze).mapM fun n => (mget tieTbl n).map fun p => (n, p.1)) =
        some tieCands ∧
    minByKeyFirst (fun p => p.2) tieCands = some (⟨3, 5, Direction.Up⟩, 3008) ∧
    (⟨3, 5, Direction.Down⟩, 3008) ∈ tieCands ∧
    (⟨3, 5, Direction.Down⟩ : Node) ≠ ⟨3, 5, Direction.Up⟩ ∧
    part2Walk tieTbl 100000 [] [⟨3, 5, Direction.Up⟩] = some tieOut ∧
    IsWalk tieGraph tieStart ⟨3, 5, Direction.Down⟩ tieSteps ∧
    walkWeight tieSteps = 3008 ∧
    (∀ steps, IsWalk tieGraph tieStart ⟨3, 5, Direction.Down⟩ steps →
      3008 ≤ walkWeight steps) ∧
    (⟨1, 1, Direction.Up⟩ : Node) ∈ walkNodes tieStart tieSteps ∧
    ¬ ((1, 1) : Nat × Nat) ∈ tieOut ∧
    part2 100000 tieInput = some 9 := by
  have hfin : Final tieGraph tieStart tieTbl :=
    dijkstra_some_final tieGraph (from_maze_wf tieMaze) tieStart tieTbl rfl
  refine ⟨rfl, rfl, by decide, by decide, rfl, ⟨by decide, by decide⟩, by decide,
    ?_, by decide, by decide, rfl⟩
  exact (final_dist_min tieGraph (from_maze_wf tieMaze) tieStart tieTbl hfin
    ⟨3, 5, Direction.Down⟩ tieSteps ⟨by decide, by decide⟩ (by decide) 3008
    [⟨2, 5, Direction.Down⟩] rfl).2
